import Mathlib

/-!
Verification of the sort-based shuffle repartitioner
(`src/native-engine/datafusion-ext-plans/src/shuffle/sort_repartitioner.rs`).

The Rust source is shallowly embedded: machine integers become `Nat`
(the `u32` fields of `PI` overflow only on slices of at least `2 ^ 32`
elements, so theorems about them carry that bound as a hypothesis),
mutable state becomes explicit state passing, slice indexing that can
panic returns `Except Err`, and the two `while`/`loop` constructs whose
termination is not structural are given explicit fuel together with
theorems showing the fuel is never exhausted.
-/

namespace SortShuffle

/-- Error outcomes of the embedded code: `panic` models a Rust panic
(out-of-bounds slice access), `outOfFuel` is an artifact of the fueled
embedding of `loop`/`while` and is proved unreachable,
`resourcesExhausted` models `DataFusionError::ResourcesExhausted`. -/
inductive Err where
  | panic
  | outOfFuel
  | resourcesExhausted
deriving DecidableEq, Repr

/-- The sortable unit: `struct PI { partition_id: u32, index: u32 }`
(source lines 475-479). -/
structure PI where
  partition_id : Nat
  index : Nat
deriving DecidableEq, Repr

instance : Inhabited PI := ⟨⟨0, 0⟩⟩

/-- `pis.swap(i, j)` on a slice; identity when an index is out of bounds
(the embedding checks bounds before calling it). -/
def swapL (l : List α) (i j : Nat) : List α :=
  match l[i]?, l[j]? with
  | some a, some b => (l.set i b).set j a
  | _, _ => l

/-- The `counts` phase of `counting_sort_pis` (source lines 485-490):
`counts[pi.partition_id] += 1` for each pair, panicking when
`partition_id` is out of bounds of `counts`. -/
def computeCounts : List PI → List Nat → Except Err (List Nat)
  | [], counts => .ok counts
  | pi :: rest, counts =>
    if h : pi.partition_id < counts.length then
      computeCounts rest (counts.set pi.partition_id (counts.get ⟨pi.partition_id, h⟩ + 1))
    else
      .error .panic

/-- The `buckets` phase of `counting_sort_pis` (source lines 492-497):
each count becomes the half-open range starting at the previous range's
end (`buckets.last().map(|b| b.end).unwrap_or(0)`), represented as a
`(start, stop)` pair. The running end is threaded as `start`. -/
def computeBuckets : List Nat → Nat → List (Nat × Nat)
  | [], _ => []
  | c :: rest, start => (start, start + c) :: computeBuckets rest (start + c)

/-- The inner cycle-following `loop` of `counting_sort_pis` (source lines
502-510): look up the bucket of `pis[i]`; if it contains `i`, advance its
start and stop, otherwise swap `pis[i]` into its bucket's start, advance
that start, and repeat. Fueled; all indexing is bounds-checked. -/
def innerLoop : Nat → List PI → List (Nat × Nat) → Nat → Except Err (List PI × List (Nat × Nat))
  | 0, _, _, _ => .error .outOfFuel
  | fuel + 1, pis, buckets, i =>
    if hi : i < pis.length then
      let t := (pis.get ⟨i, hi⟩).partition_id
      if ht : t < buckets.length then
        let bucket := buckets.get ⟨t, ht⟩
        if bucket.1 ≤ i ∧ i < bucket.2 then
          .ok (pis, buckets.set t (bucket.1 + 1, bucket.2))
        else
          if bucket.1 < pis.length then
            innerLoop fuel (swapL pis i bucket.1) (buckets.set t (bucket.1 + 1, bucket.2)) i
          else
            .error .panic
      else
        .error .panic
    else
      .error .panic

/-- The `for i in buckets[b].clone()` loop (source line 501): `cnt`
iterations starting at index `i`. -/
def forI (fuel : Nat) : Nat → Nat → List PI → List (Nat × Nat) →
    Except Err (List PI × List (Nat × Nat))
  | 0, _, pis, buckets => .ok (pis, buckets)
  | cnt + 1, i, pis, buckets => do
    let st ← innerLoop fuel pis buckets i
    forI fuel cnt (i + 1) st.1 st.2

/-- The `for b in 0..num_output_partitions` loop (source line 500): the
iteration range of the inner loop is `buckets[b]` cloned at entry. -/
def forB (fuel : Nat) : Nat → Nat → List PI → List (Nat × Nat) →
    Except Err (List PI × List (Nat × Nat))
  | 0, _, pis, buckets => .ok (pis, buckets)
  | cnt + 1, b, pis, buckets =>
    if hb : b < buckets.length then
      let r := buckets.get ⟨b, hb⟩
      do
        let st ← forI fuel (r.2 - r.1) r.1 pis buckets
        forB fuel cnt (b + 1) st.1 st.2
    else
      .error .panic

/-- `fn counting_sort_pis(pis: &mut [PI], num_output_partitions: usize)`
(source lines 481-513). The returned list is the reordered slice. The
inner `loop` gets fuel `pis.length + 1`; `counting_sort_fuel_sufficient`
shows this never runs out when every `partition_id` is in range. -/
def counting_sort_pis (pis : List PI) (num_output_partitions : Nat) :
    Except Err (List PI) := do
  let counts ← computeCounts pis (List.replicate num_output_partitions 0)
  let buckets := computeBuckets counts 0
  let st ← forB (pis.length + 1) num_output_partitions 0 pis buckets
  .ok st.1

/-! ### Helper notions for the counting-sort proof -/

/-- Start of bucket `t` (out-of-range reads return a dummy). -/
def bstart (bks : List (Nat × Nat)) (t : Nat) : Nat := (bks.getD t (0, 0)).1

/-- Stop of bucket `t`. -/
def bstop (bks : List (Nat × Nat)) (t : Nat) : Nat := (bks.getD t (0, 0)).2

/-- Partition id of the element at position `j`. -/
def pidAt (a : List PI) (j : Nat) : Nat := (a.getD j ⟨0, 0⟩).partition_id

/-- Sum of the first `t` counts: the fixed lower boundary of bucket `t`. -/
def pref (counts : List Nat) (t : Nat) : Nat := (counts.take t).sum

/-- Total remaining bucket capacity: the inner loop's termination measure. -/
def bMeasure (bks : List (Nat × Nat)) : Nat :=
  (bks.map (fun p => p.2 - p.1)).sum

theorem pref_zero (c : List Nat) : pref c 0 = 0 := rfl

theorem pref_succ (c : List Nat) (t : Nat) (h : t < c.length) :
    pref c (t + 1) = pref c t + c.getD t 0 := by
  unfold pref
  rw [List.take_succ, List.sum_append, List.getElem?_eq_getElem h,
    List.getD_eq_getElem?_getD, List.getElem?_eq_getElem h]
  simp

theorem pref_succ_of_ge (c : List Nat) (t : Nat) (h : c.length ≤ t) :
    pref c (t + 1) = pref c t := by
  unfold pref
  rw [List.take_of_length_le h, List.take_of_length_le (Nat.le_succ_of_le h)]

theorem pref_mono (c : List Nat) {s t : Nat} (h : s ≤ t) : pref c s ≤ pref c t := by
  induction t with
  | zero =>
    have : s = 0 := Nat.le_zero.mp h
    subst this
    exact le_refl _
  | succ t ih =>
    rcases Nat.eq_or_lt_of_le h with rfl | h'
    · exact le_refl _
    · have hst : s ≤ t := Nat.lt_succ_iff.mp h'
      rcases Nat.lt_or_ge t c.length with ht | ht
      · exact le_trans (ih hst) (by rw [pref_succ c t ht]; omega)
      · exact le_trans (ih hst) (le_of_eq (pref_succ_of_ge c t ht).symm)

theorem pref_length (c : List Nat) : pref c c.length = c.sum := by
  simp [pref]

theorem pref_le_sum (c : List Nat) (t : Nat) : pref c t ≤ c.sum := by
  rcases le_or_lt t c.length with h | h
  · exact le_trans (pref_mono c h) (le_of_eq (pref_length c))
  · have : pref c t = c.sum := by
      simp [pref, List.take_of_length_le (le_of_lt h)]
    exact le_of_eq this

theorem pref_cons (x : Nat) (c : List Nat) (t : Nat) :
    pref (x :: c) (t + 1) = x + pref c t := by
  simp [pref]

/-- Every position below the total count lies in exactly one bucket range. -/
theorem exists_bucket (c : List Nat) (j : Nat) (h : j < c.sum) :
    ∃ t, t < c.length ∧ pref c t ≤ j ∧ j < pref c (t + 1) := by
  induction c generalizing j with
  | nil => simp at h
  | cons x rest ih =>
    rcases Nat.lt_or_ge j x with hj | hj
    · exact ⟨0, by simp, by simp [pref_zero], by simpa [pref_cons, pref_zero] using hj⟩
    · have hsum : j - x < rest.sum := by simp at h; omega
      obtain ⟨t, ht, hlo, hhi⟩ := ih (j - x) hsum
      exact ⟨t + 1, by simpa using ht, by rw [pref_cons]; omega, by rw [pref_cons]; omega⟩

/-! #### computeBuckets -/

theorem computeBuckets_length (c : List Nat) (s : Nat) :
    (computeBuckets c s).length = c.length := by
  induction c generalizing s with
  | nil => rfl
  | cons x rest ih => simp [computeBuckets, ih]

theorem computeBuckets_getD (c : List Nat) (s t : Nat) (h : t < c.length) :
    (computeBuckets c s).getD t (0, 0) = (s + pref c t, s + pref c (t + 1)) := by
  induction c generalizing s t with
  | nil => simp at h
  | cons x rest ih =>
    cases t with
    | zero => simp [computeBuckets, pref_zero, pref_cons]
    | succ t =>
      have ht : t < rest.length := by simpa using h
      have hih := ih (s + x) t ht
      simp only [computeBuckets, List.getD_cons_succ, hih, pref_cons, Prod.mk.injEq]
      omega

/-! #### computeCounts -/

theorem computeCounts_length {pis : List PI} {c res : List Nat}
    (h : computeCounts pis c = .ok res) : res.length = c.length := by
  induction pis generalizing c with
  | nil => simp [computeCounts] at h; simp [h]
  | cons pi rest ih =>
    by_cases hp : pi.partition_id < c.length
    · simp only [computeCounts, dif_pos hp] at h
      simpa using ih h
    · simp [computeCounts, dif_neg hp] at h

theorem computeCounts_getD {pis : List PI} {c res : List Nat}
    (h : computeCounts pis c = .ok res) (t : Nat) (ht : t < c.length) :
    res.getD t 0 = c.getD t 0 + pis.countP (fun x => x.partition_id == t) := by
  induction pis generalizing c with
  | nil => simp [computeCounts] at h; simp [h]
  | cons pi rest ih =>
    by_cases hp : pi.partition_id < c.length
    · simp only [computeCounts, dif_pos hp] at h
      have := ih h (by simpa using ht)
      rw [this, List.countP_cons]
      by_cases he : pi.partition_id = t
      · subst he
        simp [List.getD_eq_getElem?_getD, List.getElem?_set_self hp,
          List.getElem?_eq_getElem hp]
        omega
      · have heq : (c.set pi.partition_id (c.get ⟨pi.partition_id, hp⟩ + 1)).getD t 0 =
            c.getD t 0 := by
          simp [List.getD_eq_getElem?_getD, List.getElem?_set_ne he]
        rw [heq]
        simp [he]
    · simp [computeCounts, dif_neg hp] at h

theorem sum_set_getD (c : List Nat) (k : Nat) (hk : k < c.length) (v : Nat) :
    (c.set k v).sum + c.getD k 0 = c.sum + v := by
  induction c generalizing k with
  | nil => simp at hk
  | cons x rest ih =>
    cases k with
    | zero => simp; omega
    | succ k =>
      have hk' : k < rest.length := by simpa using hk
      have := ih k hk'
      simp only [List.set_cons_succ, List.sum_cons, List.getD_cons_succ]
      omega

theorem computeCounts_sum {pis : List PI} {c res : List Nat}
    (h : computeCounts pis c = .ok res) : res.sum = c.sum + pis.length := by
  induction pis generalizing c with
  | nil => simp [computeCounts] at h; simp [h]
  | cons pi rest ih =>
    by_cases hp : pi.partition_id < c.length
    · simp only [computeCounts, dif_pos hp] at h
      have hs := ih h
      rw [hs]
      have hset := sum_set_getD c pi.partition_id hp (c.get ⟨pi.partition_id, hp⟩ + 1)
      have hgd : c.getD pi.partition_id 0 = c.get ⟨pi.partition_id, hp⟩ := by
        simp [List.getD_eq_getElem?_getD, List.getElem?_eq_getElem hp]
      rw [hgd] at hset
      simp only [List.length_cons]
      omega
    · simp [computeCounts, dif_neg hp] at h

theorem computeCounts_ok {pis : List PI} {c : List Nat}
    (h : ∀ pi ∈ pis, pi.partition_id < c.length) :
    ∃ res, computeCounts pis c = .ok res := by
  induction pis generalizing c with
  | nil => exact ⟨c, rfl⟩
  | cons pi rest ih =>
    have hp : pi.partition_id < c.length := h pi (by simp)
    simp only [computeCounts, dif_pos hp]
    apply ih
    intro x hx
    have hxl := h x (by simp [hx])
    simpa using hxl

theorem computeCounts_panic {pis : List PI} {c : List Nat}
    (h : ∃ pi ∈ pis, c.length ≤ pi.partition_id) :
    computeCounts pis c = .error .panic := by
  induction pis generalizing c with
  | nil => simp at h
  | cons pi rest ih =>
    by_cases hp : pi.partition_id < c.length
    · simp only [computeCounts, dif_pos hp]
      apply ih
      rcases h with ⟨x, hx, hge⟩
      rcases List.mem_cons.mp hx with rfl | hmem
      · omega
      · exact ⟨x, hmem, by simpa using hge⟩
    · simp [computeCounts, dif_neg hp]

/-! #### swapL -/

theorem swapL_length (l : List α) (i j : Nat) : (swapL l i j).length = l.length := by
  unfold swapL
  rcases h1 : l[i]? with _ | a <;> rcases h2 : l[j]? with _ | b <;> simp [h1, h2]

theorem swapL_cons_succ (x : α) (l : List α) (i j : Nat) :
    swapL (x :: l) (i + 1) (j + 1) = x :: swapL l i j := by
  unfold swapL
  rcases h1 : l[i]? with _ | a <;> rcases h2 : l[j]? with _ | b <;>
    simp [List.getElem?_cons_succ, h1, h2]

/-- Helper for `swapL_perm`: replacing position `k` by `x` and putting the
old element in front is a permutation of putting `x` in front. -/
theorem set_cons_perm (l : List α) (k : Nat) (hk : k < l.length) (x : α) :
    (l.get ⟨k, hk⟩ :: l.set k x).Perm (x :: l) := by
  induction l generalizing k with
  | nil => simp at hk
  | cons y rest ih =>
    cases k with
    | zero => simpa using List.Perm.swap x y rest
    | succ k =>
      have hk' : k < rest.length := by simpa using hk
      have h1 : ((y :: rest).get ⟨k + 1, hk⟩ :: (y :: rest).set (k + 1) x)
          = rest.get ⟨k, hk'⟩ :: y :: rest.set k x := by simp
      rw [h1]
      exact (List.Perm.swap y _ _).trans (((ih k hk').cons y).trans (List.Perm.swap x y rest))

theorem swapL_perm (l : List α) (i j : Nat) : (swapL l i j).Perm l := by
  induction l generalizing i j with
  | nil => unfold swapL; simp
  | cons x rest ih =>
    cases i with
    | zero =>
      cases j with
      | zero =>
        unfold swapL
        rcases h0 : (x :: rest)[0]? with _ | a
        · simp at h0
        · simp at h0
          subst h0
          simp
      | succ j =>
        rcases hj : rest[j]? with _ | b
        · unfold swapL
          simp [hj]
        · have hjl : j < rest.length := List.getElem?_eq_some_iff.mp hj |>.1
          have hb : rest[j] = b := by
            have := List.getElem?_eq_getElem hjl
            rw [hj] at this
            exact (Option.some.injEq _ _).mp this.symm
          unfold swapL
          simp only [List.getElem?_cons_zero, List.getElem?_cons_succ, hj,
            List.set_cons_zero, List.set_cons_succ]
          have hres := set_cons_perm rest j hjl x
          simp only [List.get_eq_getElem] at hres
          rw [hb] at hres
          exact hres
    | succ i =>
      cases j with
      | zero =>
        rcases hi : rest[i]? with _ | a
        · unfold swapL
          simp [hi]
        · have hil : i < rest.length := List.getElem?_eq_some_iff.mp hi |>.1
          have ha : rest[i] = a := by
            have := List.getElem?_eq_getElem hil
            rw [hi] at this
            exact (Option.some.injEq _ _).mp this.symm
          unfold swapL
          simp only [List.getElem?_cons_succ, List.getElem?_cons_zero, hi,
            List.set_cons_zero, List.set_cons_succ]
          have hres := set_cons_perm rest i hil x
          simp only [List.get_eq_getElem] at hres
          rw [ha] at hres
          exact hres
      | succ j =>
        rw [swapL_cons_succ]
        exact (ih i j).cons x

theorem swapL_eq_set_set (l : List α) {i k : Nat} (hi : i < l.length) (hk : k < l.length) :
    swapL l i k = (l.set i (l.get ⟨k, hk⟩)).set k (l.get ⟨i, hi⟩) := by
  unfold swapL
  rw [List.getElem?_eq_getElem hi, List.getElem?_eq_getElem hk]
  simp only [List.get_eq_getElem]

/-! #### getD bridges -/

theorem getD_set_self (l : List α) {t : Nat} (h : t < l.length) (v d : α) :
    (l.set t v).getD t d = v := by
  rw [List.getD_eq_getElem?_getD, List.getElem?_set_self h]
  rfl

theorem getD_set_ne (l : List α) {t u : Nat} (h : t ≠ u) (v d : α) :
    (l.set t v).getD u d = l.getD u d := by
  rw [List.getD_eq_getElem?_getD, List.getElem?_set_ne h, ← List.getD_eq_getElem?_getD]

theorem getD_eq_get (l : List α) {t : Nat} (h : t < l.length) (d : α) :
    l.getD t d = l.get ⟨t, h⟩ := by
  rw [List.getD_eq_getElem?_getD, List.getElem?_eq_getElem h]
  rfl

theorem bstart_set_self (bks : List (Nat × Nat)) {t : Nat} (h : t < bks.length)
    (v : Nat × Nat) : bstart (bks.set t v) t = v.1 := by
  unfold bstart
  rw [getD_set_self bks h]

theorem bstart_set_ne (bks : List (Nat × Nat)) {t u : Nat} (h : t ≠ u) (v : Nat × Nat) :
    bstart (bks.set t v) u = bstart bks u := by
  unfold bstart
  rw [getD_set_ne bks h]

theorem bstop_set_self (bks : List (Nat × Nat)) {t : Nat} (h : t < bks.length)
    (v : Nat × Nat) : bstop (bks.set t v) t = v.2 := by
  unfold bstop
  rw [getD_set_self bks h]

theorem bstop_set_ne (bks : List (Nat × Nat)) {t u : Nat} (h : t ≠ u) (v : Nat × Nat) :
    bstop (bks.set t v) u = bstop bks u := by
  unfold bstop
  rw [getD_set_ne bks h]

theorem bks_get_eq (bks : List (Nat × Nat)) {t : Nat} (h : t < bks.length) :
    bks.get ⟨t, h⟩ = (bstart bks t, bstop bks t) := by
  unfold bstart bstop
  rw [getD_eq_get bks h]

theorem pidAt_eq_get (a : List PI) {j : Nat} (h : j < a.length) :
    pidAt a j = (a.get ⟨j, h⟩).partition_id := by
  unfold pidAt
  rw [getD_eq_get a h]

theorem pidAt_set_self (a : List PI) {j : Nat} (h : j < a.length) (v : PI) :
    pidAt (a.set j v) j = v.partition_id := by
  unfold pidAt
  rw [getD_set_self a h]

theorem pidAt_set_ne (a : List PI) {j u : Nat} (h : j ≠ u) (v : PI) :
    pidAt (a.set j v) u = pidAt a u := by
  unfold pidAt
  rw [getD_set_ne a h]

theorem pidAt_swapL_left (a : List PI) {i k : Nat} (hi : i < a.length) (hk : k < a.length) :
    pidAt (swapL a i k) i = pidAt a k := by
  rw [swapL_eq_set_set a hi hk]
  by_cases h : k = i
  · subst h
    rw [pidAt_set_self _ (by simpa using hi)]
    exact (pidAt_eq_get a hi).symm
  · rw [pidAt_set_ne _ h, pidAt_set_self a hi]
    exact (pidAt_eq_get a hk).symm

theorem pidAt_swapL_right (a : List PI) {i k : Nat} (hi : i < a.length) (hk : k < a.length) :
    pidAt (swapL a i k) k = pidAt a i := by
  rw [swapL_eq_set_set a hi hk, pidAt_set_self _ (by simpa using hk)]
  exact (pidAt_eq_get a hi).symm

theorem pidAt_swapL_other (a : List PI) {i k j : Nat} (hi : i < a.length)
    (hk : k < a.length) (h1 : j ≠ i) (h2 : j ≠ k) :
    pidAt (swapL a i k) j = pidAt a j := by
  rw [swapL_eq_set_set a hi hk, pidAt_set_ne _ (Ne.symm h2), pidAt_set_ne _ (Ne.symm h1)]

/-! #### The sort invariant -/

/-- Invariant of the cycle-following placement phase: the array is a
permutation of the original, every bucket's moving start stays between
its fixed boundaries, and all positions below a bucket's start (within
its fixed range) already hold elements of that bucket. -/
structure SInv (orig : List PI) (counts : List Nat)
    (a : List PI) (bks : List (Nat × Nat)) : Prop where
  perm : a.Perm orig
  blen : bks.length = counts.length
  stop_eq : ∀ t, t < counts.length → bstop bks t = pref counts (t + 1)
  start_lb : ∀ t, t < counts.length → pref counts t ≤ bstart bks t
  start_ub : ∀ t, t < counts.length → bstart bks t ≤ pref counts (t + 1)
  settled : ∀ t, t < counts.length → ∀ j, pref counts t ≤ j → j < bstart bks t →
    pidAt a j = t

theorem SInv.alen {orig : List PI} {counts : List Nat} {a : List PI}
    {bks : List (Nat × Nat)} (inv : SInv orig counts a bks) :
    a.length = orig.length := inv.perm.length_eq

theorem SInv.pid_lt {orig : List PI} {counts : List Nat} {a : List PI}
    {bks : List (Nat × Nat)} (inv : SInv orig counts a bks)
    (hpids : ∀ pi ∈ orig, pi.partition_id < counts.length)
    {j : Nat} (hj : j < a.length) : pidAt a j < counts.length := by
  rw [pidAt_eq_get a hj]
  have hmem : a.get ⟨j, hj⟩ ∈ a := by
    rw [List.get_eq_getElem]
    exact List.getElem_mem hj
  exact hpids _ (inv.perm.mem_iff.mp hmem)

/-- If bucket `t` is full (its start reached its stop), every element
with partition id `t` lies inside bucket `t`'s fixed range. -/
theorem full_bucket {orig : List PI} {counts : List Nat} {a : List PI}
    {bks : List (Nat × Nat)} (inv : SInv orig counts a bks)
    (hcount : ∀ t, t < counts.length →
      counts.getD t 0 = orig.countP (fun x => x.partition_id == t))
    (hsum : counts.sum = orig.length)
    {t : Nat} (ht : t < counts.length)
    (hfull : bstart bks t = pref counts (t + 1))
    {j : Nat} (hj : j < a.length) (hpid : pidAt a j = t) :
    pref counts t ≤ j ∧ j < pref counts (t + 1) := by
  have halen : a.length = orig.length := inv.alen
  have hBE : pref counts t ≤ pref counts (t + 1) := pref_mono counts (Nat.le_succ t)
  have hEa : pref counts (t + 1) ≤ a.length := by
    have := pref_le_sum counts (t + 1)
    omega
  have hcnt_t : pref counts (t + 1) = pref counts t + counts.getD t 0 :=
    pref_succ counts t ht
  set B := pref counts t with hB
  set E := pref counts (t + 1) with hE
  set p : PI → Bool := fun x => x.partition_id == t with hp
  -- decompose a into the three regions
  have hmid_drop : (a.drop B).drop (E - B) = a.drop E := by
    rw [List.drop_drop]
    congr 1
    omega
  have hdecomp : a = a.take B ++ ((a.drop B).take (E - B) ++ a.drop E) := by
    rw [← hmid_drop]
    rw [List.take_append_drop, List.take_append_drop]
  have hcount_split : a.countP p =
      (a.take B).countP p + (((a.drop B).take (E - B)).countP p + (a.drop E).countP p) := by
    conv_lhs => rw [hdecomp]
    rw [List.countP_append, List.countP_append]
  -- the middle region is entirely partition t
  have hmid_len : ((a.drop B).take (E - B)).length = E - B := by
    rw [List.length_take, List.length_drop]
    omega
  have hmid_all : ∀ x ∈ (a.drop B).take (E - B), p x := by
    intro x hx
    obtain ⟨k, hk, hkx⟩ := List.mem_iff_getElem.mp hx
    have hk' : k < E - B := by omega
    have hBk : B + k < a.length := by omega
    have hxa : x = a.get ⟨B + k, hBk⟩ := by
      rw [← hkx, List.getElem_take, List.getElem_drop, List.get_eq_getElem]
    have hset : pidAt a (B + k) = t := by
      apply inv.settled t ht
      · omega
      · omega
    rw [hp]
    simp only [beq_iff_eq]
    rw [hxa]
    rw [← pidAt_eq_get a hBk]
    exact hset
  have hmid_cnt : ((a.drop B).take (E - B)).countP p = E - B := by
    rw [List.countP_eq_length.mpr hmid_all, hmid_len]
  -- total count equals the bucket capacity
  have htotal : a.countP p = counts.getD t 0 := by
    rw [inv.perm.countP_eq, ← hcount t ht]
  have hzero : (a.take B).countP p = 0 ∧ (a.drop E).countP p = 0 := by
    constructor <;> omega
  -- conclude position bounds
  constructor
  · by_contra hlt
    push_neg at hlt
    have hjl : j < (a.take B).length := by
      rw [List.length_take]
      omega
    have hmem : a.get ⟨j, hj⟩ ∈ a.take B := by
      have hgt : (a.take B)[j] = a[j] := List.getElem_take ..
      rw [List.get_eq_getElem, ← hgt]
      exact List.getElem_mem hjl
    have := List.countP_eq_zero.mp hzero.1 _ hmem
    rw [hp] at this
    simp only [beq_iff_eq] at this
    rw [pidAt_eq_get a hj] at hpid
    exact this hpid
  · by_contra hge
    push_neg at hge
    have hjl : j - E < (a.drop E).length := by
      rw [List.length_drop]
      omega
    have hmem : a.get ⟨j, hj⟩ ∈ a.drop E := by
      have hgt : (a.drop E)[j - E] = a[E + (j - E)] := List.getElem_drop ..
      have hidx : E + (j - E) = j := by omega
      simp only [hidx] at hgt
      rw [List.get_eq_getElem, ← hgt]
      exact List.getElem_mem hjl
    have := List.countP_eq_zero.mp hzero.2 _ hmem
    rw [hp] at this
    simp only [beq_iff_eq] at this
    rw [pidAt_eq_get a hj] at hpid
    exact this hpid

/-! #### Measure lemmas -/

theorem bMeasure_le_aux : ∀ (bks : List (Nat × Nat)) (c : List Nat),
    bks.length = c.length →
    (∀ t, t < bks.length → (bks.getD t (0, 0)).2 - (bks.getD t (0, 0)).1 ≤ c.getD t 0) →
    bMeasure bks ≤ c.sum := by
  intro bks
  induction bks with
  | nil => intro c _ _; simp [bMeasure]
  | cons hd tl ih =>
    intro c hlen hbd
    cases c with
    | nil => simp at hlen
    | cons x rest =>
      have h0 := hbd 0 (by simp)
      simp only [List.getD_cons_zero] at h0
      have htl : bMeasure tl ≤ rest.sum := by
        apply ih rest (by simpa using hlen)
        intro t ht
        have := hbd (t + 1) (by simpa using ht)
        simpa using this
      simp only [bMeasure, List.map_cons, List.sum_cons, List.sum_cons] at htl ⊢
      omega

theorem SInv.measure_le {orig : List PI} {counts : List Nat} {a : List PI}
    {bks : List (Nat × Nat)} (inv : SInv orig counts a bks) :
    bMeasure bks ≤ counts.sum := by
  apply bMeasure_le_aux bks counts inv.blen
  intro t ht
  have ht' : t < counts.length := by rw [← inv.blen]; exact ht
  have h1 := inv.stop_eq t ht'
  have h2 := inv.start_lb t ht'
  have h3 := pref_succ counts t ht'
  simp only [bstart, bstop] at h1 h2
  omega

theorem bMeasure_set_lt : ∀ (bks : List (Nat × Nat)) (t : Nat), t < bks.length →
    ∀ s e, bks.getD t (0, 0) = (s, e) → s < e →
    bMeasure (bks.set t (s + 1, e)) < bMeasure bks := by
  intro bks
  induction bks with
  | nil => intro t ht; simp at ht
  | cons hd tl ih =>
    intro t ht s e hget hse
    cases t with
    | zero =>
      simp only [List.getD_cons_zero] at hget
      subst hget
      simp only [List.set_cons_zero, bMeasure, List.map_cons, List.sum_cons]
      omega
    | succ t =>
      have ht' : t < tl.length := by simpa using ht
      have hget' : tl.getD t (0, 0) = (s, e) := by simpa using hget
      have := ih t ht' s e hget' hse
      simp only [List.set_cons_succ, bMeasure, List.map_cons, List.sum_cons] at this ⊢
      omega

/-! #### The cycle-following inner loop -/

theorem bstart_set_pair (bks : List (Nat × Nat)) {t : Nat} (h : t < bks.length)
    (x y : Nat) : bstart (bks.set t (x, y)) t = x :=
  bstart_set_self bks h (x, y)

theorem bstop_set_pair (bks : List (Nat × Nat)) {t : Nat} (h : t < bks.length)
    (x y : Nat) : bstop (bks.set t (x, y)) t = y :=
  bstop_set_self bks h (x, y)

theorem innerLoop_ok {orig : List PI} {counts : List Nat}
    (hcount : ∀ t, t < counts.length →
      counts.getD t 0 = orig.countP (fun x => x.partition_id == t))
    (hsum : counts.sum = orig.length)
    (hpids : ∀ pi ∈ orig, pi.partition_id < counts.length)
    {a : List PI} {bks : List (Nat × Nat)} {b i fuel : Nat}
    (inv : SInv orig counts a bks)
    (hb : b < counts.length)
    (hprev : ∀ t, t < b → bstart bks t = pref counts (t + 1))
    (hsb : bstart bks b = i)
    (hib : i < pref counts (b + 1)) :
    bMeasure bks < fuel →
    ∃ a2 bks2, innerLoop fuel a bks i = .ok (a2, bks2) ∧
      SInv orig counts a2 bks2 ∧
      (∀ t, t < b → bstart bks2 t = bstart bks t) ∧
      bstart bks2 b = i + 1 ∧
      bMeasure bks2 < bMeasure bks := by
  induction fuel generalizing a bks with
  | zero => omega
  | succ f ih =>
    intro hfuel
    have halen : a.length = orig.length := inv.alen
    have hi : i < a.length := by
      have h1 : pref counts (b + 1) ≤ counts.sum := pref_le_sum counts (b + 1)
      omega
    have hBb_le : pref counts b ≤ i := by
      have := inv.start_lb b hb
      omega
    have ht_lt : pidAt a i < counts.length := inv.pid_lt hpids hi
    have ht_bks : pidAt a i < bks.length := by rw [inv.blen]; exact ht_lt
    -- partition ids below b are fully settled, so pidAt a i ≥ b
    have ht_ge : b ≤ pidAt a i := by
      by_contra hlt
      push_neg at hlt
      have hfull := hprev _ hlt
      have hran := full_bucket inv hcount hsum (lt_trans hlt hb) hfull hi rfl
      have hm : pref counts (pidAt a i + 1) ≤ pref counts b :=
        pref_mono counts (by omega)
      omega
    -- unfold one step of the loop
    rw [innerLoop]
    rw [dif_pos hi]
    have hpa : (a.get ⟨i, hi⟩).partition_id = pidAt a i := (pidAt_eq_get a hi).symm
    rw [hpa]
    rw [dif_pos ht_bks]
    rw [bks_get_eq bks ht_bks]
    by_cases hcase : bstart bks (pidAt a i) ≤ i ∧ i < bstop bks (pidAt a i)
    · -- the element already belongs to this bucket: this must be bucket b
      rw [if_pos hcase]
      have htb : pidAt a i = b := by
        rcases Nat.lt_or_ge b (pidAt a i) with hgt | hge2
        · exfalso
          have h1 : pref counts (pidAt a i) ≤ bstart bks (pidAt a i) :=
            inv.start_lb _ ht_lt
          have h2 : pref counts (b + 1) ≤ pref counts (pidAt a i) :=
            pref_mono counts hgt
          omega
        · omega
      have hsb_i : bstart bks (pidAt a i) = i := by rw [htb]; exact hsb
      refine ⟨a, bks.set (pidAt a i)
        (bstart bks (pidAt a i) + 1, bstop bks (pidAt a i)), rfl, ?_, ?_, ?_, ?_⟩
      · -- invariant is preserved
        refine ⟨inv.perm, by rw [List.length_set]; exact inv.blen, ?_, ?_, ?_, ?_⟩
        · intro u hu
          by_cases he : pidAt a i = u
          · subst he
            rw [bstop_set_pair bks ht_bks]
            exact inv.stop_eq _ hu
          · rw [bstop_set_ne bks he]
            exact inv.stop_eq u hu
        · intro u hu
          by_cases he : pidAt a i = u
          · subst he
            rw [bstart_set_pair bks ht_bks]
            have := inv.start_lb _ hu
            omega
          · rw [bstart_set_ne bks he]
            exact inv.start_lb u hu
        · intro u hu
          by_cases he : pidAt a i = u
          · subst he
            rw [bstart_set_pair bks ht_bks]
            have h1 := inv.stop_eq _ hu
            have h2 : i < bstop bks (pidAt a i) := hcase.2
            omega
          · rw [bstart_set_ne bks he]
            exact inv.start_ub u hu
        · intro u hu j hj1 hj2
          by_cases he : pidAt a i = u
          · subst he
            rw [bstart_set_pair bks ht_bks] at hj2
            rcases Nat.lt_or_ge j (bstart bks (pidAt a i)) with hjlt | hjge
            · exact inv.settled _ hu j hj1 hjlt
            · have : j = i := by omega
              subst this
              rfl
          · rw [bstart_set_ne bks he] at hj2
            exact inv.settled u hu j hj1 hj2
      · intro u hu
        have hne : pidAt a i ≠ u := by omega
        exact bstart_set_ne bks hne _
      · have hnb : pidAt a i = b := htb
        rw [← hnb] at hsb ⊢
        rw [bstart_set_pair bks ht_bks, hsb_i]
      · apply bMeasure_set_lt bks (pidAt a i) ht_bks (bstart bks (pidAt a i))
          (bstop bks (pidAt a i))
        · unfold bstart bstop
          rw [getD_eq_get bks ht_bks]
        · have h1 := inv.stop_eq _ ht_lt
          have h2 : i < bstop bks (pidAt a i) := hcase.2
          have h3 : bstart bks (pidAt a i) ≤ i := hcase.1
          omega
    · -- cycle step: swap the element into its own bucket
      rw [if_neg hcase]
      have htb : b < pidAt a i := by
        rcases Nat.lt_or_ge b (pidAt a i) with hgt | hge2
        · exact hgt
        · exfalso
          have he : pidAt a i = b := by omega
          apply hcase
          rw [he]
          have h2 := inv.stop_eq b hb
          constructor
          · omega
          · rw [h2]; exact hib
      -- the target bucket is not yet full
      have hnotfull : bstart bks (pidAt a i) < pref counts (pidAt a i + 1) := by
        rcases Nat.lt_or_ge (bstart bks (pidAt a i)) (pref counts (pidAt a i + 1))
          with h | h
        · exact h
        · exfalso
          have hub := inv.start_ub _ ht_lt
          have hfull : bstart bks (pidAt a i) = pref counts (pidAt a i + 1) := by omega
          have hran := full_bucket inv hcount hsum ht_lt hfull hi rfl
          have hm : pref counts (b + 1) ≤ pref counts (pidAt a i) :=
            pref_mono counts htb
          omega
      have hst_lt : bstart bks (pidAt a i) < a.length := by
        have h1 : pref counts (pidAt a i + 1) ≤ counts.sum :=
          pref_le_sum counts (pidAt a i + 1)
        omega
      rw [if_pos hst_lt]
      have hBt_le : pref counts (pidAt a i) ≤ bstart bks (pidAt a i) :=
        inv.start_lb _ ht_lt
      have hi_lt_Bt : i < pref counts (pidAt a i) := by
        have : pref counts (b + 1) ≤ pref counts (pidAt a i) := pref_mono counts htb
        omega
      have hine : i ≠ bstart bks (pidAt a i) := by omega
      have ha'len : (swapL a i (bstart bks (pidAt a i))).length = a.length :=
        swapL_length a i (bstart bks (pidAt a i))
      -- invariant for the recursive call
      have inv' : SInv orig counts (swapL a i (bstart bks (pidAt a i)))
          (bks.set (pidAt a i) (bstart bks (pidAt a i) + 1, bstop bks (pidAt a i))) := by
        refine ⟨(swapL_perm a i (bstart bks (pidAt a i))).trans inv.perm,
          by rw [List.length_set]; exact inv.blen, ?_, ?_, ?_, ?_⟩
        · intro u hu
          by_cases he : pidAt a i = u
          · subst he
            rw [bstop_set_pair bks ht_bks]
            exact inv.stop_eq _ hu
          · rw [bstop_set_ne bks he]
            exact inv.stop_eq u hu
        · intro u hu
          by_cases he : pidAt a i = u
          · subst he
            rw [bstart_set_pair bks ht_bks]
            have := inv.start_lb _ hu
            omega
          · rw [bstart_set_ne bks he]
            exact inv.start_lb u hu
        · intro u hu
          by_cases he : pidAt a i = u
          · subst he
            rw [bstart_set_pair bks ht_bks]
            omega
          · rw [bstart_set_ne bks he]
            exact inv.start_ub u hu
        · intro u hu j hj1 hj2
          by_cases he : pidAt a i = u
          · subst he
            rw [bstart_set_pair bks ht_bks] at hj2
            rcases Nat.lt_or_ge j (bstart bks (pidAt a i)) with hjlt | hjge
            · -- previously settled slot of this bucket: untouched by the swap
              have hji : j ≠ i := by omega
              have hjs : j ≠ bstart bks (pidAt a i) := by omega
              rw [pidAt_swapL_other a hi hst_lt hji hjs]
              exact inv.settled _ hu j hj1 hjlt
            · -- the freshly filled slot
              have : j = bstart bks (pidAt a i) := by omega
              subst this
              rw [pidAt_swapL_right a hi hst_lt]
          · rw [bstart_set_ne bks he] at hj2
            -- slots of other buckets are disjoint from the swapped positions
            have hj_lt_stop : j < pref counts (u + 1) := by
              have := inv.start_ub u hu
              omega
            have hji : j ≠ i := by
              intro hje
              subst hje
              rcases Nat.lt_or_ge u b with hub | hub
              · have : pref counts (u + 1) ≤ pref counts b := pref_mono counts hub
                omega
              · rcases Nat.eq_or_lt_of_le hub with hub2 | hub2
                · subst hub2
                  omega
                · have : pref counts (b + 1) ≤ pref counts u := pref_mono counts hub2
                  omega
            have hjs : j ≠ bstart bks (pidAt a i) := by
              intro hje
              subst hje
              rcases Nat.lt_or_ge u (pidAt a i) with hut | hut
              · have : pref counts (u + 1) ≤ pref counts (pidAt a i) :=
                  pref_mono counts hut
                omega
              · have hut2 : pidAt a i < u := by omega
                have h2 : pref counts (pidAt a i + 1) ≤ pref counts u :=
                  pref_mono counts hut2
                have h3 := inv.start_ub _ ht_lt
                omega
            rw [pidAt_swapL_other a hi hst_lt hji hjs]
            exact inv.settled u hu j hj1 hj2
      -- data flowing into the recursive call
      have hprev' : ∀ u, u < b →
          bstart (bks.set (pidAt a i)
            (bstart bks (pidAt a i) + 1, bstop bks (pidAt a i))) u =
          pref counts (u + 1) := by
        intro u hu
        have hne : pidAt a i ≠ u := by omega
        rw [bstart_set_ne bks hne]
        exact hprev u hu
      have hsb' : bstart (bks.set (pidAt a i)
          (bstart bks (pidAt a i) + 1, bstop bks (pidAt a i))) b = i := by
        have hne : pidAt a i ≠ b := by omega
        rw [bstart_set_ne bks hne]
        exact hsb
      have hmeas : bMeasure (bks.set (pidAt a i)
          (bstart bks (pidAt a i) + 1, bstop bks (pidAt a i))) < bMeasure bks := by
        apply bMeasure_set_lt bks (pidAt a i) ht_bks (bstart bks (pidAt a i))
          (bstop bks (pidAt a i))
        · unfold bstart bstop
          rw [getD_eq_get bks ht_bks]
        · have := inv.stop_eq _ ht_lt
          omega
      have hfuel' : bMeasure (bks.set (pidAt a i)
          (bstart bks (pidAt a i) + 1, bstop bks (pidAt a i))) < f := by omega
      obtain ⟨a2, bks2, hrun, hinv2, hpr2, hsb2, hm2⟩ :=
        ih inv' hprev' hsb' hfuel'
      refine ⟨a2, bks2, hrun, hinv2, ?_, hsb2, by omega⟩
      intro u hu
      rw [hpr2 u hu]
      have hne : pidAt a i ≠ u := by omega
      rw [bstart_set_ne bks hne]

/-! #### The two `for` loops -/

theorem forI_ok {orig : List PI} {counts : List Nat}
    (hcount : ∀ t, t < counts.length →
      counts.getD t 0 = orig.countP (fun x => x.partition_id == t))
    (hsum : counts.sum = orig.length)
    (hpids : ∀ pi ∈ orig, pi.partition_id < counts.length)
    {a : List PI} {bks : List (Nat × Nat)} {b i cnt fuel : Nat}
    (inv : SInv orig counts a bks)
    (hb : b < counts.length)
    (hprev : ∀ t, t < b → bstart bks t = pref counts (t + 1))
    (hsb : bstart bks b = i)
    (hcnt : i + cnt = pref counts (b + 1))
    (hfuel : bMeasure bks < fuel) :
    ∃ a2 bks2, forI fuel cnt i a bks = .ok (a2, bks2) ∧
      SInv orig counts a2 bks2 ∧
      (∀ t, t < b → bstart bks2 t = bstart bks t) ∧
      bstart bks2 b = pref counts (b + 1) ∧
      bMeasure bks2 ≤ bMeasure bks := by
  induction cnt generalizing i a bks with
  | zero =>
    refine ⟨a, bks, rfl, inv, fun t _ => rfl, ?_, le_refl _⟩
    omega
  | succ cnt ihc =>
    have hib : i < pref counts (b + 1) := by omega
    obtain ⟨a1, bks1, hrun1, inv1, hpr1, hsb1, hm1⟩ :=
      innerLoop_ok hcount hsum hpids inv hb hprev hsb hib hfuel
    have hprev1 : ∀ t, t < b → bstart bks1 t = pref counts (t + 1) := by
      intro t ht
      rw [hpr1 t ht]
      exact hprev t ht
    have hcnt1 : (i + 1) + cnt = pref counts (b + 1) := by omega
    have hfuel1 : bMeasure bks1 < fuel := by omega
    obtain ⟨a2, bks2, hrun2, inv2, hpr2, hsb2, hm2⟩ :=
      ihc inv1 hprev1 hsb1 hcnt1 hfuel1
    refine ⟨a2, bks2, ?_, inv2, ?_, hsb2, by omega⟩
    · rw [forI, hrun1]
      simpa using hrun2
    · intro t ht
      rw [hpr2 t ht]
      exact hpr1 t ht

theorem forB_ok {orig : List PI} {counts : List Nat}
    (hcount : ∀ t, t < counts.length →
      counts.getD t 0 = orig.countP (fun x => x.partition_id == t))
    (hsum : counts.sum = orig.length)
    (hpids : ∀ pi ∈ orig, pi.partition_id < counts.length)
    {a : List PI} {bks : List (Nat × Nat)} {b cnt fuel : Nat}
    (inv : SInv orig counts a bks)
    (hbc : b + cnt = counts.length)
    (hprev : ∀ t, t < b → bstart bks t = pref counts (t + 1))
    (hfuel : bMeasure bks < fuel) :
    ∃ a2 bks2, forB fuel cnt b a bks = .ok (a2, bks2) ∧
      SInv orig counts a2 bks2 ∧
      (∀ t, t < counts.length → bstart bks2 t = pref counts (t + 1)) := by
  induction cnt generalizing b a bks with
  | zero =>
    exact ⟨a, bks, rfl, inv, fun t ht => hprev t (by omega)⟩
  | succ cnt ihc =>
    have hb : b < counts.length := by omega
    have hbb : b < bks.length := by rw [inv.blen]; omega
    have hstop := inv.stop_eq b hb
    have hub := inv.start_ub b hb
    have hcnt : bstart bks b + (bstop bks b - bstart bks b) = pref counts (b + 1) := by
      omega
    obtain ⟨a1, bks1, hrun1, inv1, hpr1, hsb1, hm1⟩ :=
      forI_ok hcount hsum hpids inv hb hprev rfl hcnt hfuel
    have hprev1 : ∀ t, t < b + 1 → bstart bks1 t = pref counts (t + 1) := by
      intro t ht
      rcases Nat.lt_or_ge t b with h | h
      · rw [hpr1 t h]
        exact hprev t h
      · have : t = b := by omega
        subst this
        exact hsb1
    have hfuel1 : bMeasure bks1 < fuel := by omega
    obtain ⟨a2, bks2, hrun2, inv2, hfull⟩ :=
      ihc inv1 (by omega) hprev1 hfuel1
    refine ⟨a2, bks2, ?_, inv2, hfull⟩
    rw [forB, dif_pos hbb, bks_get_eq bks hbb]
    show ((forI fuel (bstop bks b - bstart bks b) (bstart bks b) a bks).bind
      fun st => forB fuel cnt (b + 1) st.1 st.2) = _
    rw [hrun1]
    simpa using hrun2

/-! #### Top-level counting-sort theorems -/

/-- Master correctness lemma for `counting_sort_pis`: on inputs whose
partition ids are all below `num_output_partitions`, the sort returns
(fuel included), the result is a permutation of the input, and its
partition ids are non-decreasing. -/
theorem counting_sort_spec (pis : List PI) (N : Nat)
    (hpids : ∀ pi ∈ pis, pi.partition_id < N) :
    ∃ out, counting_sort_pis pis N = .ok out ∧ out.Perm pis ∧
      List.Chain' (fun x y : PI => x.partition_id ≤ y.partition_id) out := by
  have hrep : (List.replicate N (0 : Nat)).length = N := by simp
  obtain ⟨counts, hcc⟩ := @computeCounts_ok pis (List.replicate N 0)
    (by rw [hrep]; exact hpids)
  have hclen : counts.length = N := (computeCounts_length hcc).trans hrep
  have hcount : ∀ t, t < counts.length →
      counts.getD t 0 = pis.countP (fun x => x.partition_id == t) := by
    intro t ht
    have ht' : t < (List.replicate N (0 : Nat)).length := by rw [hrep]; omega
    have := computeCounts_getD hcc t ht'
    rw [this, getD_eq_get _ ht']
    simp
  have hsum : counts.sum = pis.length := by
    have := computeCounts_sum hcc
    simpa using this
  have hpids' : ∀ pi ∈ pis, pi.partition_id < counts.length := by
    intro pi hpi
    rw [hclen]
    exact hpids pi hpi
  set bks0 := computeBuckets counts 0 with hbks0
  have hblen : bks0.length = counts.length := computeBuckets_length counts 0
  have hbget : ∀ t, t < counts.length →
      bstart bks0 t = pref counts t ∧ bstop bks0 t = pref counts (t + 1) := by
    intro t ht
    have := computeBuckets_getD counts 0 t ht
    unfold bstart bstop
    rw [hbks0, this]
    simp
  have inv0 : SInv pis counts pis bks0 := by
    refine ⟨List.Perm.refl pis, hblen, ?_, ?_, ?_, ?_⟩
    · intro t ht
      exact (hbget t ht).2
    · intro t ht
      rw [(hbget t ht).1]
    · intro t ht
      rw [(hbget t ht).1]
      exact pref_mono counts (Nat.le_succ t)
    · intro t ht j hj1 hj2
      rw [(hbget t ht).1] at hj2
      omega
  have hfuel : bMeasure bks0 < pis.length + 1 := by
    have := inv0.measure_le
    omega
  have hbc0 : 0 + N = counts.length := by omega
  obtain ⟨a2, bks2, hrun, inv2, hfull⟩ :=
    forB_ok hcount hsum hpids' inv0 hbc0 (fun t ht => (Nat.not_lt_zero t ht).elim) hfuel
  refine ⟨a2, ?_, inv2.perm, ?_⟩
  · unfold counting_sort_pis
    rw [hcc]
    show (forB (pis.length + 1) N 0 pis bks0).bind _ = _
    rw [hrun]
    rfl
  · have halen2 : a2.length = pis.length := inv2.alen
    rw [List.chain'_iff_get]
    intro k hk
    have hk1 : k < counts.sum := by omega
    have hk2 : k + 1 < counts.sum := by omega
    obtain ⟨t1, ht1, hlo1, hhi1⟩ := exists_bucket counts k hk1
    obtain ⟨t2, ht2, hlo2, hhi2⟩ := exists_bucket counts (k + 1) hk2
    have hs1 := hfull t1 ht1
    have hs2 := hfull t2 ht2
    have hp1 : pidAt a2 k = t1 := inv2.settled t1 ht1 k hlo1 (by omega)
    have hp2 : pidAt a2 (k + 1) = t2 := inv2.settled t2 ht2 (k + 1) hlo2 (by omega)
    have ht12 : t1 ≤ t2 := by
      by_contra hgt
      push_neg at hgt
      have : pref counts (t2 + 1) ≤ pref counts t1 := pref_mono counts hgt
      omega
    have hka : k < a2.length := by omega
    have hka1 : k + 1 < a2.length := by omega
    show (a2.get ⟨k, _⟩).partition_id ≤ (a2.get ⟨k + 1, _⟩).partition_id
    rw [← pidAt_eq_get a2 hka, ← pidAt_eq_get a2 hka1]
    omega

/-- On inputs containing a partition id at or above
`num_output_partitions`, the counts phase indexes out of bounds. -/
theorem counting_sort_oob (pis : List PI) (N : Nat)
    (h : ∃ pi ∈ pis, N ≤ pi.partition_id) :
    counting_sort_pis pis N = .error .panic := by
  have hcc : computeCounts pis (List.replicate N 0) = .error .panic := by
    apply computeCounts_panic
    obtain ⟨pi, hmem, hge⟩ := h
    exact ⟨pi, hmem, by simpa using hge⟩
  unfold counting_sort_pis
  rw [hcc]
  rfl

/-! ### The freeze phase: `spill_buffered_to_in_mem` -/

/-- `struct InMemSpillInfo { frozen: Vec<u8>, offsets: Vec<u64> }` as
constructed at source lines 138-141. The byte type is abstract (`β`)
because the serialized content is produced by the external codec. -/
structure InMemSpillInfo (β : Type) where
  frozen : List β
  offsets : List Nat
deriving DecidableEq, Repr

/-- `Vec::resize(n, v)`: truncate or pad with `v` to length exactly `n`
(used at source lines 193-195 and 446-448). -/
def rustResize (l : List α) (n : Nat) (v : α) : List α :=
  l.take n ++ List.replicate (n - l.length) v

/-- Body iteration of `pushOffsetsWhile`, running `d` times. -/
def pushOffsetsGo (flen : Nat) : Nat → List Nat → Nat → List Nat × Nat
  | 0, offs, cur => (offs, cur)
  | d + 1, offs, cur => pushOffsetsGo flen d (offs ++ [flen]) (cur + 1)

/-- The `while pi_vec[cur_offset].partition_id > cur_partition_id` loop
(source lines 181-184) and the analogous
`while cur_partition_id < min_spill.cur` loop (source lines 412-415):
append the current byte position once per skipped partition and advance
the partition counter up to `target`. The loop body runs exactly
`target - cur` times. -/
def pushOffsetsWhile (offsets : List Nat) (flen cur target : Nat) : List Nat × Nat :=
  pushOffsetsGo flen (target - cur) offsets cur

/-- State of the frame-emitting loop of `spill_buffered_to_in_mem`
(source lines 136-142). `frames` is a ghost record of each sub-batch
written by `write_sub_batch!` (the PI pairs whose rows it takes); the
bytes appended for a frame come from the abstract serializer `enc`,
standing for `compute::take` + `write_one_batch`. -/
structure FreezeState (β : Type) where
  cur_partition_id : Nat
  cur_slice_start : Nat
  frozen : List β
  offsets : List Nat
  frames : List (List PI)
deriving DecidableEq, Repr

/-- The `for cur_offset in 0..pi_vec.len()` loop (source lines 172-186),
iterating `cnt` times starting at `cur_offset`. -/
def freezeLoop (enc : List PI → List β) (batch_size : Nat) (pv : List PI) :
    Nat → Nat → FreezeState β → FreezeState β
  | 0, _, st => st
  | cnt + 1, cur_offset, st =>
    let pid := (pv.getD cur_offset ⟨0, 0⟩).partition_id
    let st2 :=
      if pid > st.cur_partition_id ∨ batch_size ≤ cur_offset - st.cur_slice_start then
        let st1 :=
          if st.cur_slice_start < cur_offset then
            let frame := (pv.drop st.cur_slice_start).take (cur_offset - st.cur_slice_start)
            { st with
              frozen := st.frozen ++ enc frame
              frames := st.frames ++ [frame]
              cur_slice_start := cur_offset }
          else st
        let po := pushOffsetsWhile st1.offsets st1.frozen.length st1.cur_partition_id pid
        { st1 with offsets := po.1, cur_partition_id := po.2 }
      else st
    freezeLoop enc batch_size pv cnt (cur_offset + 1) st2

/-- The tail of `spill_buffered_to_in_mem` after the counting sort
(source lines 136-196): emit frames, write the trailing frame (source
lines 187-189), then resize the offsets table to `N + 1` entries padded
with the final byte length (lines 192-195). Returns the spill together
with the ghost list of emitted frames. -/
def framePhase (enc : List PI → List β) (batch_size N : Nat) (pv : List PI) :
    InMemSpillInfo β × List (List PI) :=
  let st1 := freezeLoop enc batch_size pv pv.length 0 ⟨0, 0, [], [0], []⟩
  let st2 :=
    if st1.cur_slice_start < pv.length then
      let frame := pv.drop st1.cur_slice_start
      { st1 with
        frozen := st1.frozen ++ enc frame
        frames := st1.frames ++ [frame] }
    else st1
  (⟨st2.frozen, rustResize st2.offsets (N + 1) st2.frozen.length⟩, st2.frames)

/-- `spill_buffered_to_in_mem` from the already-evaluated partition ids
of the concatenated buffered batch (source lines 104-198): build
`pi_vec` by enumeration (lines 125-132), sort it with
`counting_sort_pis` (line 133), then emit the framed spill. -/
def freezePids (enc : List PI → List β) (batch_size N : Nat) (pids : List Nat) :
    Except Err (InMemSpillInfo β × List (List PI)) := do
  let pi_vec := pids.enum.map (fun ip => PI.mk ip.2 ip.1)
  let sorted ← counting_sort_pis pi_vec N
  .ok (framePhase enc batch_size N sorted)

/-! #### Offsets well-formedness of the freeze phase -/

theorem pushOffsetsGo_spec (flen : Nat) : ∀ (d : Nat) (offs : List Nat) (cur : Nat),
    pushOffsetsGo flen d offs cur = (offs ++ List.replicate d flen, cur + d) := by
  intro d
  induction d with
  | zero => intro offs cur; simp [pushOffsetsGo]
  | succ d ih =>
    intro offs cur
    rw [pushOffsetsGo, ih, Prod.mk.injEq]
    constructor
    · rw [List.replicate_succ, List.append_assoc]
      rfl
    · omega

theorem pushOffsetsWhile_spec (offsets : List Nat) (flen cur target : Nat) :
    pushOffsetsWhile offsets flen cur target =
      (offsets ++ List.replicate (target - cur) flen, max cur target) := by
  unfold pushOffsetsWhile
  rw [pushOffsetsGo_spec, Prod.mk.injEq]
  exact ⟨rfl, by omega⟩

theorem mem_of_getLast? {l : List α} {a : α} (h : l.getLast? = some a) : a ∈ l := by
  obtain ⟨hne, heq⟩ := List.mem_getLast?_eq_getLast (by rw [h]; rfl)
  rw [heq]
  exact List.getLast_mem hne

theorem chain'_replicate_le (d flen : Nat) :
    List.Chain' (· ≤ ·) (List.replicate d flen) := by
  induction d with
  | zero => simp
  | succ d ih =>
    rw [List.replicate_succ]
    rw [List.chain'_cons']
    refine ⟨?_, ih⟩
    intro y hy
    have hyf : flen = y := by
      cases d with
      | zero => simp at hy
      | succ d =>
        rw [List.replicate_succ] at hy
        simpa using hy
    omega

theorem head?_append_left {l l2 : List α} {a : α} (h : l.head? = some a) :
    (l ++ l2).head? = some a := by
  cases l with
  | nil => simp at h
  | cons x xs => simpa using h

/-- Offsets-related invariant of `freezeLoop` at loop position `off`. -/
structure FrOffInv (pv : List PI) (off : Nat) (st : FreezeState β) : Prop where
  off_le : off ≤ pv.length
  offs_ne : st.offsets ≠ []
  offs_head : st.offsets.head? = some 0
  offs_chain : List.Chain' (· ≤ ·) st.offsets
  offs_le : ∀ v ∈ st.offsets, v ≤ st.frozen.length
  offs_len : st.offsets.length = st.cur_partition_id + 1
  pid_src : st.cur_partition_id = 0 ∨ ∃ j, j < off ∧ pidAt pv j = st.cur_partition_id

theorem freezeLoop_off_inv (enc : List PI → List β) (bs : Nat) (pv : List PI) :
    ∀ (cnt off : Nat) (st : FreezeState β), off + cnt = pv.length →
    FrOffInv pv off st →
    FrOffInv pv pv.length (freezeLoop enc bs pv cnt off st) := by
  intro cnt
  induction cnt with
  | zero =>
    intro off st hoff inv
    have : off = pv.length := by omega
    subst this
    exact inv
  | succ cnt ih =>
    intro off st hoff inv
    rw [freezeLoop]
    apply ih (off + 1) _ (by omega)
    set pid := (pv.getD off ⟨0, 0⟩).partition_id with hpid
    by_cases hc : pid > st.cur_partition_id ∨ bs ≤ off - st.cur_slice_start
    · rw [if_pos hc]
      -- the frame-cut stage st1
      set st1 := if st.cur_slice_start < off then
          { st with
            frozen := st.frozen ++
              enc ((pv.drop st.cur_slice_start).take (off - st.cur_slice_start))
            frames := st.frames ++
              [(pv.drop st.cur_slice_start).take (off - st.cur_slice_start)]
            cur_slice_start := off }
        else st with hst1
      have h1_offsets : st1.offsets = st.offsets := by
        rw [hst1]; split <;> rfl
      have h1_cur : st1.cur_partition_id = st.cur_partition_id := by
        rw [hst1]; split <;> rfl
      have h1_frozen : ∃ ext, st1.frozen = st.frozen ++ ext := by
        rw [hst1]; split
        · exact ⟨_, rfl⟩
        · exact ⟨[], by simp⟩
      obtain ⟨ext, hext⟩ := h1_frozen
      simp only [pushOffsetsWhile_spec]
      constructor
      · omega
      · simp only [h1_offsets]
        intro hc2
        exact inv.offs_ne (by
          cases hx : st.offsets with
          | nil => rfl
          | cons y ys => rw [hx] at hc2; simp at hc2)
      · simp only [h1_offsets]
        exact head?_append_left inv.offs_head
      · simp only [h1_offsets]
        apply List.Chain'.append inv.offs_chain (chain'_replicate_le _ _)
        intro x hx y hy
        have hxm : x ∈ st.offsets := mem_of_getLast? hx
        have hx_le : x ≤ st.frozen.length := inv.offs_le x hxm
        have hy_eq : y = st1.frozen.length := by
          rcases List.mem_of_mem_head? hy |> List.eq_of_mem_replicate with h
          exact h
        rw [hy_eq, hext]
        simp only [List.length_append]
        omega
      · simp only [h1_offsets]
        intro v hv
        rcases List.mem_append.mp hv with hv | hv
        · have := inv.offs_le v hv
          rw [hext]
          simp only [List.length_append]
          omega
        · have := List.eq_of_mem_replicate hv
          omega
      · simp only [h1_offsets, h1_cur, List.length_append, List.length_replicate,
          inv.offs_len]
        omega
      · simp only [h1_cur]
        rcases Nat.lt_or_ge st.cur_partition_id pid with hlt | hge
        · right
          refine ⟨off, by omega, ?_⟩
        -- the new cur_partition_id is the pid at position off
          have : max st.cur_partition_id pid = pid := by omega
          rw [this]
          rfl
        · have : max st.cur_partition_id pid = st.cur_partition_id := by omega
          rw [this]
          rcases inv.pid_src with h | ⟨j, hj, hjp⟩
          · exact Or.inl h
          · exact Or.inr ⟨j, by omega, hjp⟩
    · rw [if_neg hc]
      exact ⟨by omega, inv.offs_ne, inv.offs_head, inv.offs_chain, inv.offs_le,
        inv.offs_len, by
          rcases inv.pid_src with h | ⟨j, hj, hjp⟩
          · exact Or.inl h
          · exact Or.inr ⟨j, by omega, hjp⟩⟩

/-! #### Frame shape of the freeze phase -/

/-- On a list whose partition ids form a non-decreasing chain, `pidAt`
is monotone. -/
theorem chainPid_mono (pv : List PI)
    (h : List.Chain' (fun x y : PI => x.partition_id ≤ y.partition_id) pv) :
    ∀ j k, j ≤ k → k < pv.length → pidAt pv j ≤ pidAt pv k := by
  intro j k hjk hk
  induction k with
  | zero =>
    have : j = 0 := by omega
    subst this
    exact le_refl _
  | succ k ihk =>
    rcases Nat.eq_or_lt_of_le hjk with rfl | hlt
    · exact le_refl _
    · have hjk' : j ≤ k := by omega
      have hk' : k < pv.length := by omega
      have hstep : pidAt pv k ≤ pidAt pv (k + 1) := by
        have hs := List.chain'_iff_get.mp h k (by omega)
        rw [pidAt_eq_get pv hk', pidAt_eq_get pv hk]
        exact hs
      have := ihk hjk' hk'
      omega

/-- Frame-related invariant of `freezeLoop` at loop position `off`. -/
structure FrFrInv (pv : List PI) (bs off : Nat) (st : FreezeState β) : Prop where
  off_le : off ≤ pv.length
  start_le : st.cur_slice_start ≤ off
  run_le : off - st.cur_slice_start ≤ bs
  run_pid : ∀ j, st.cur_slice_start ≤ j → j < off → pidAt pv j = st.cur_partition_id
  pid_src : st.cur_partition_id = 0 ∨ ∃ j, j < off ∧ pidAt pv j = st.cur_partition_id
  frames_ok : ∀ f ∈ st.frames, f ≠ [] ∧ f.length ≤ bs ∧
    ∃ p, ∀ x ∈ f, x.partition_id = p

/-- A slice `(pv.drop start).take (off - start)` of a run whose pids all
equal `c` is a valid frame. -/
theorem run_frame_ok (pv : List PI) (bs start off c : Nat)
    (hso : start < off) (hol : off ≤ pv.length) (hbs : off - start ≤ bs)
    (hrun : ∀ j, start ≤ j → j < off → pidAt pv j = c) :
    (pv.drop start).take (off - start) ≠ [] ∧
    ((pv.drop start).take (off - start)).length ≤ bs ∧
    ∃ p, ∀ x ∈ (pv.drop start).take (off - start), x.partition_id = p := by
  have hlen : ((pv.drop start).take (off - start)).length = off - start := by
    rw [List.length_take, List.length_drop]
    omega
  refine ⟨?_, by omega, c, ?_⟩
  · intro hnil
    rw [hnil] at hlen
    simp at hlen
    omega
  · intro x hx
    obtain ⟨k, hk, hkx⟩ := List.mem_iff_getElem.mp hx
    have hks : start + k < pv.length := by
      rw [hlen] at hk
      omega
    have hxa : x = pv.get ⟨start + k, hks⟩ := by
      rw [← hkx, List.getElem_take, List.getElem_drop, List.get_eq_getElem]
    have hpid : pidAt pv (start + k) = c := by
      apply hrun
      · omega
      · rw [hlen] at hk
        omega
    rw [hxa, ← pidAt_eq_get pv hks]
    exact hpid

theorem freezeLoop_frames_inv (enc : List PI → List β) {bs : Nat} (hbs : 1 ≤ bs)
    (pv : List PI)
    (hsort : List.Chain' (fun x y : PI => x.partition_id ≤ y.partition_id) pv) :
    ∀ (cnt off : Nat) (st : FreezeState β), off + cnt = pv.length →
    FrFrInv pv bs off st →
    FrFrInv pv bs pv.length (freezeLoop enc bs pv cnt off st) := by
  intro cnt
  induction cnt with
  | zero =>
    intro off st hoff inv
    have : off = pv.length := by omega
    subst this
    exact inv
  | succ cnt ih =>
    intro off st hoff inv
    rw [freezeLoop]
    apply ih (off + 1) _ (by omega)
    set pid := (pv.getD off ⟨0, 0⟩).partition_id with hpid
    have hoff_lt : off < pv.length := by omega
    have hpidAt : pidAt pv off = pid := rfl
    -- positions before off never carry a pid above the one at off
    have hcur_le : st.cur_partition_id ≤ pid := by
      rcases inv.pid_src with h | ⟨j, hj, hjp⟩
      · omega
      · have := chainPid_mono pv hsort j off (by omega) hoff_lt
        omega
    by_cases hc : pid > st.cur_partition_id ∨ bs ≤ off - st.cur_slice_start
    · rw [if_pos hc]
      set st1 := if st.cur_slice_start < off then
          { st with
            frozen := st.frozen ++
              enc ((pv.drop st.cur_slice_start).take (off - st.cur_slice_start))
            frames := st.frames ++
              [(pv.drop st.cur_slice_start).take (off - st.cur_slice_start)]
            cur_slice_start := off }
        else st with hst1
      have h1_start : st1.cur_slice_start = off := by
        have hsl := inv.start_le
        rw [hst1]
        split
        · rfl
        · omega
      have h1_cur : st1.cur_partition_id = st.cur_partition_id := by
        rw [hst1]; split <;> rfl
      have h1_frames : ∀ f ∈ st1.frames, f ≠ [] ∧ f.length ≤ bs ∧
          ∃ p, ∀ x ∈ f, x.partition_id = p := by
        rw [hst1]
        split
        · intro f hf
          rcases List.mem_append.mp hf with hf | hf
          · exact inv.frames_ok f hf
          · have hfe : f = (pv.drop st.cur_slice_start).take (off - st.cur_slice_start) := by
              simpa using hf
            rw [hfe]
            exact run_frame_ok pv bs st.cur_slice_start off st.cur_partition_id
              (by assumption) (by omega) inv.run_le inv.run_pid
        · exact inv.frames_ok
      simp only [pushOffsetsWhile_spec]
      refine ⟨by omega, by rw [h1_start]; omega, by rw [h1_start]; omega, ?_, ?_, h1_frames⟩
      · intro j hj1 hj2
        rw [h1_start] at hj1
        have : j = off := by omega
        subst this
        rw [h1_cur]
        rcases Nat.lt_or_ge st.cur_partition_id pid with hlt | hge
        · have : max st.cur_partition_id pid = pid := by omega
          rw [this]
          exact hpidAt
        · have heq : pid = st.cur_partition_id := by omega
          have : max st.cur_partition_id pid = st.cur_partition_id := by omega
          rw [this, hpidAt, heq]
      · rw [h1_cur]
        rcases Nat.lt_or_ge st.cur_partition_id pid with hlt | hge
        · have : max st.cur_partition_id pid = pid := by omega
          rw [this]
          exact Or.inr ⟨off, by omega, hpidAt⟩
        · have : max st.cur_partition_id pid = st.cur_partition_id := by omega
          rw [this]
          rcases inv.pid_src with h | ⟨j, hj, hjp⟩
          · exact Or.inl h
          · exact Or.inr ⟨j, by omega, hjp⟩
    · rw [if_neg hc]
      push_neg at hc
      have hpe : pid = st.cur_partition_id := by omega
      have hsl := inv.start_le
      have hrl := inv.run_le
      refine ⟨by omega, by omega, by omega, ?_, ?_, inv.frames_ok⟩
      · intro j hj1 hj2
        rcases Nat.lt_or_ge j off with hjo | hjo
        · exact inv.run_pid j hj1 hjo
        · have : j = off := by omega
          subst this
          rw [hpidAt, hpe]
      · rcases inv.pid_src with h | ⟨j, hj, hjp⟩
        · exact Or.inl h
        · exact Or.inr ⟨j, by omega, hjp⟩

/-! #### End-to-end freeze specifications -/

theorem rustResize_wf (offsets : List Nat) (m flen : Nat)
    (hhead : offsets.head? = some 0)
    (hchain : List.Chain' (· ≤ ·) offsets)
    (hle : ∀ v ∈ offsets, v ≤ flen)
    (hlen : offsets.length < m) :
    (rustResize offsets m flen).length = m ∧
    (rustResize offsets m flen).head? = some 0 ∧
    List.Chain' (· ≤ ·) (rustResize offsets m flen) ∧
    (rustResize offsets m flen).getLast? = some flen := by
  unfold rustResize
  rw [List.take_of_length_le (by omega)]
  refine ⟨?_, head?_append_left hhead, ?_, ?_⟩
  · simp only [List.length_append, List.length_replicate]
    omega
  · apply List.Chain'.append hchain (chain'_replicate_le _ _)
    intro x hx y hy
    have hxm : x ∈ offsets := mem_of_getLast? hx
    have hyf : flen = y := by
      rcases hd : m - offsets.length with _ | d
      · omega
      · rw [hd, List.replicate_succ] at hy
        simpa using hy
    have := hle x hxm
    omega
  · rw [List.getLast?_append_of_ne_nil]
    · rcases hd : m - offsets.length with _ | d
      · omega
      · rw [List.getLast?_replicate]
        simp
    · rcases hd : m - offsets.length with _ | d
      · omega
      · rw [List.replicate_succ]
        simp

theorem framePhase_spec (enc : List PI → List β) (bs N : Nat) (pv : List PI)
    (hbs : 1 ≤ bs)
    (hsort : List.Chain' (fun x y : PI => x.partition_id ≤ y.partition_id) pv)
    (hpids : ∀ x ∈ pv, x.partition_id < N) :
    (framePhase enc bs N pv).1.offsets.length = N + 1 ∧
    (framePhase enc bs N pv).1.offsets.head? = some 0 ∧
    List.Chain' (· ≤ ·) (framePhase enc bs N pv).1.offsets ∧
    (framePhase enc bs N pv).1.offsets.getLast? =
      some (framePhase enc bs N pv).1.frozen.length ∧
    (∀ f ∈ (framePhase enc bs N pv).2, f ≠ [] ∧ f.length ≤ bs ∧
      ∃ p, ∀ x ∈ f, x.partition_id = p) := by
  rcases Nat.eq_zero_or_pos N with hN | hN
  · -- with no output partitions the input must be empty
    subst hN
    have hpv : pv = [] := by
      cases pv with
      | nil => rfl
      | cons x rest => exact absurd (hpids x (by simp)) (by omega)
    subst hpv
    refine ⟨rfl, rfl, ?_, rfl, ?_⟩
    · unfold framePhase freezeLoop rustResize
      simp
    · intro f hf
      simp [framePhase, freezeLoop] at hf
  · have invO := freezeLoop_off_inv enc bs pv pv.length 0 ⟨0, 0, [], [0], []⟩
      (by omega)
      ⟨Nat.zero_le _, by simp, rfl, by simp, by simp, rfl, Or.inl rfl⟩
    have invF := freezeLoop_frames_inv enc hbs pv hsort pv.length 0 ⟨0, 0, [], [0], []⟩
      (by omega)
      ⟨Nat.zero_le _, le_refl _, Nat.zero_le _,
        fun j h1 h2 => absurd h2 (Nat.not_lt_zero j), Or.inl rfl,
        fun f hf => absurd hf (List.not_mem_nil f)⟩
    set st1 := freezeLoop enc bs pv pv.length 0 ⟨0, 0, [], [0], []⟩ with hst1
    set st2 := if st1.cur_slice_start < pv.length then
        { st1 with
          frozen := st1.frozen ++ enc (pv.drop st1.cur_slice_start)
          frames := st1.frames ++ [pv.drop st1.cur_slice_start] }
      else st1 with hst2
    have h2_offsets : st2.offsets = st1.offsets := by
      rw [hst2]; split <;> rfl
    have h2_cur : st2.cur_partition_id = st1.cur_partition_id := by
      rw [hst2]; split <;> rfl
    have h2_frozen : ∃ ext, st2.frozen = st1.frozen ++ ext := by
      rw [hst2]; split
      · exact ⟨_, rfl⟩
      · exact ⟨[], by simp⟩
    obtain ⟨ext, hext⟩ := h2_frozen
    have h2_frames : ∀ f ∈ st2.frames, f ≠ [] ∧ f.length ≤ bs ∧
        ∃ p, ∀ x ∈ f, x.partition_id = p := by
      rw [hst2]
      split
      · intro f hf
        rcases List.mem_append.mp hf with hf | hf
        · exact invF.frames_ok f hf
        · have hfe : f = pv.drop st1.cur_slice_start := by simpa using hf
          have hdt : pv.drop st1.cur_slice_start =
              (pv.drop st1.cur_slice_start).take (pv.length - st1.cur_slice_start) := by
            rw [List.take_of_length_le]
            rw [List.length_drop]
          rw [hfe, hdt]
          exact run_frame_ok pv bs st1.cur_slice_start pv.length st1.cur_partition_id
            (by assumption) (le_refl _) invF.run_le invF.run_pid
      · exact invF.frames_ok
    -- the final partition counter is below N
    have hcur_lt : st1.cur_partition_id < N := by
      rcases invO.pid_src with h | ⟨j, hj, hjp⟩
      · omega
      · have hjl : j < pv.length := by omega
        have : pidAt pv j < N := by
          rw [pidAt_eq_get pv hjl]
          apply hpids
          rw [List.get_eq_getElem]
          exact List.getElem_mem hjl
        omega
    have hlen_lt : st2.offsets.length < N + 1 := by
      rw [h2_offsets, invO.offs_len, h2_cur] at *
      omega
    have hle2 : ∀ v ∈ st2.offsets, v ≤ st2.frozen.length := by
      intro v hv
      rw [h2_offsets] at hv
      have := invO.offs_le v hv
      rw [hext]
      simp only [List.length_append]
      omega
    have hwf := rustResize_wf st2.offsets (N + 1) st2.frozen.length
      (by rw [h2_offsets]; exact invO.offs_head)
      (by rw [h2_offsets]; exact invO.offs_chain)
      hle2 hlen_lt
    have hshow : framePhase enc bs N pv =
        (⟨st2.frozen, rustResize st2.offsets (N + 1) st2.frozen.length⟩, st2.frames) := by
      rw [framePhase]
    rw [hshow]
    exact ⟨hwf.1, hwf.2.1, hwf.2.2.1, hwf.2.2.2, h2_frames⟩

theorem mem_of_mem_enumPid {pids : List Nat} {x : PI}
    (hx : x ∈ pids.enum.map (fun ip => PI.mk ip.2 ip.1)) :
    x.partition_id ∈ pids := by
  obtain ⟨⟨i, p⟩, hmem, hxe⟩ := List.mem_map.mp hx
  have hp : p ∈ pids := List.snd_mem_of_mem_enum hmem
  rw [← hxe]
  exact hp

/-- End-to-end specification of `spill_buffered_to_in_mem` (fed with the
evaluated partition ids): it succeeds, its offsets table is well-formed,
and every emitted frame is a nonempty single-partition run of at most
`batch_size` rows. -/
theorem freezePids_spec (enc : List PI → List β) (bs N : Nat) (pids : List Nat)
    (hbs : 1 ≤ bs) (hpid : ∀ p ∈ pids, p < N) :
    ∃ spill frames, freezePids enc bs N pids = .ok (spill, frames) ∧
      spill.offsets.length = N + 1 ∧
      spill.offsets.head? = some 0 ∧
      List.Chain' (· ≤ ·) spill.offsets ∧
      spill.offsets.getLast? = some spill.frozen.length ∧
      (∀ f ∈ frames, f ≠ [] ∧ f.length ≤ bs ∧ ∃ p, ∀ x ∈ f, x.partition_id = p) := by
  have hpv : ∀ x ∈ pids.enum.map (fun ip => PI.mk ip.2 ip.1), x.partition_id < N :=
    fun x hx => hpid _ (mem_of_mem_enumPid hx)
  obtain ⟨sorted, hrun, hperm, hchain⟩ :=
    counting_sort_spec (pids.enum.map (fun ip => PI.mk ip.2 ip.1)) N hpv
  have hps : ∀ x ∈ sorted, x.partition_id < N := fun x hx => hpv x (hperm.mem_iff.mp hx)
  have hspec := framePhase_spec enc bs N sorted hbs hchain hps
  refine ⟨(framePhase enc bs N sorted).1, (framePhase enc bs N sorted).2, ?_,
    hspec.1, hspec.2.1, hspec.2.2.1, hspec.2.2.2.1, hspec.2.2.2.2⟩
  rw [show (freezePids enc bs N pids : Except Err (InMemSpillInfo β × List (List PI))) =
      (counting_sort_pis (pids.enum.map (fun ip => PI.mk ip.2 ip.1)) N).bind
        (fun s => Except.ok (framePhase enc bs N s)) from rfl, hrun]
  rfl

/-! ### The merge phase: `shuffle_write` -/

/-- Unified read-side view of a spill inside `shuffle_write`
(`enum Spill { InMem, File }` with `offsets()`, source lines 353-364):
the byte content (the `frozen` vector of an in-memory spill, or the
temp-file content of a file spill) and the offsets table. Both variants
copy the byte range `[offsets[p], offsets[p+1])` per partition, so one
model covers them. -/
structure SpillModel (β : Type) where
  frozen : List β
  offsets : List Nat
deriving DecidableEq, Repr

/-- `struct SpillCursor { spill, cur }` (source lines 336-339). -/
structure SpillCursor (β : Type) where
  spill : SpillModel β
  cur : Nat
deriving DecidableEq, Repr

/-- `fn finished(&self) -> bool { self.cur + 1 >= self.spill.offsets().len() }`
(source lines 348-350). -/
def SpillCursor.finished (c : SpillCursor β) : Bool :=
  c.spill.offsets.length ≤ c.cur + 1

/-- Body iteration of `skip_empty_partitions`, running at most `d` times. -/
def skipEmptyGo (offs : List Nat) : Nat → Nat → Nat
  | 0, cur => cur
  | d + 1, cur =>
    if cur + 1 < offs.length ∧ offs.getD (cur + 1) 0 = offs.getD cur 0 then
      skipEmptyGo offs d (cur + 1)
    else cur

/-- `skip_empty_partitions` (source lines 341-346): advance `cur` while
the cursor is unfinished and the next partition is empty. The loop can
run at most `offsets.len - cur` times before `finished` holds. -/
def SpillCursor.skip_empty_partitions (c : SpillCursor β) : SpillCursor β :=
  ⟨c.spill, skipEmptyGo c.spill.offsets (c.spill.offsets.length - c.cur) c.cur⟩

/-- Index of the cursor that the binary heap's `peek_mut` yields: the
heap is ordered by reversed `cur` (source lines 372-382), so the top is
a cursor with minimal `cur`. The heap's order among equal keys is
unspecified; the model fixes the leftmost one. -/
def minIdx : List Nat → Nat
  | [] => 0
  | [_] => 0
  | x :: y :: rest =>
    let m := minIdx (y :: rest)
    if x ≤ (y :: rest).getD m 0 then 0 else m + 1

/-- State of the merge write loop (source lines 402-448): the growing
offsets table, the bytes written to the output data file, and
`cur_partition_id`. -/
structure MergeState (β : Type) where
  offsets : List Nat
  data : List β
  cur_partition_id : Nat
deriving DecidableEq, Repr

/-- The `while let Some(mut min_spill) = spills.peek_mut()` loop (source
lines 411-442): pick a minimal cursor, align the output offsets table,
append the cursor's bytes for that partition, advance and re-insert or
drop the cursor. -/
def mergeLoop : Nat → List (SpillCursor β) → MergeState β → Except Err (MergeState β)
  | _, [], st => .ok st
  | 0, _ :: _, _ => .error .outOfFuel
  | fuel + 1, c0 :: rest, st =>
    let cs := c0 :: rest
    let k := minIdx (cs.map (fun c => c.cur))
    let c := cs.getD k ⟨⟨[], []⟩, 0⟩
    let po := pushOffsetsWhile st.offsets st.data.length st.cur_partition_id c.cur
    let lo := c.spill.offsets.getD po.2 0
    let hi := c.spill.offsets.getD (po.2 + 1) 0
    let bytes := (c.spill.frozen.drop lo).take (hi - lo)
    let c2 := SpillCursor.skip_empty_partitions ⟨c.spill, c.cur + 1⟩
    let cs2 := if c2.finished then cs.eraseIdx k else cs.set k c2
    mergeLoop fuel cs2 ⟨po.1, st.data ++ bytes, po.2⟩

/-- Fuel bound for `mergeLoop`: every iteration either advances a
cursor or drops one. -/
def mergeMeasure (cs : List (SpillCursor β)) : Nat :=
  (cs.map (fun c => c.spill.offsets.length - c.cur)).sum + cs.length

/-- The merge part of `shuffle_write` (source lines 384-453): build the
cursor collection (lines 385-395), run the write loop, resize the
offsets table to `N + 1` entries padded with the final file position
(lines 446-448). Returns the data file content and the offsets that the
index file serializes. -/
def shuffle_write_merge (spills : List (SpillModel β)) (N : Nat) :
    Except Err (List β × List Nat) := do
  let cursors := (spills.map (fun spill =>
      SpillCursor.skip_empty_partitions ⟨spill, 0⟩)).filter
      (fun c => ! c.finished)
  let st ← mergeLoop (mergeMeasure cursors + 1) cursors ⟨[0], [], 0⟩
  .ok (st.data, rustResize st.offsets (N + 1) st.data.length)

/-- `(offset as i64).to_le_bytes()` (source line 452): the 8 bytes of
the offset's two's-complement 64-bit value, least-significant first. -/
def i64le (n : Nat) : List Nat :=
  (List.range 8).map (fun k => n % 2 ^ 64 / 256 ^ k % 256)

/-- The index file contents (source lines 450-453): every offset as a
little-endian signed 64-bit integer. -/
def indexFileBytes (offsets : List Nat) : List Nat :=
  (offsets.map i64le).flatten

/-! #### Reference shape of the merge output -/

/-- The bytes of partition `p` inside a spill:
`frozen[offsets[p]..offsets[p+1]]`. -/
def partSlice (s : SpillModel β) (p : Nat) : List β :=
  (s.frozen.drop (s.offsets.getD p 0)).take
    (s.offsets.getD (p + 1) 0 - s.offsets.getD p 0)

/-- Reference output: partitions `0..k` in ascending order, and within a
partition the spills' slices in collection order. -/
def refData (spills : List (SpillModel β)) (k : Nat) : List β :=
  (List.range k).flatMap (fun p => spills.flatMap (fun s => partSlice s p))

/-- Bytes still owed for partition `p` by a cursor collection: every
cursor that has not yet passed `p` contributes its slice, in order. -/
def contribAt (cs : List (SpillCursor β)) (p : Nat) : List β :=
  (cs.filter (fun c => decide (c.cur ≤ p))).flatMap (fun c => partSlice c.spill p)

/-- Bytes still owed for partitions `a ≤ p < b`. -/
def restRange (cs : List (SpillCursor β)) (a b : Nat) : List β :=
  (List.range' a (b - a)).flatMap (fun p => contribAt cs p)

/-! #### skip_empty_partitions and minIdx lemmas -/

theorem skipEmptyGo_ge (offs : List Nat) :
    ∀ (d cur : Nat), cur ≤ skipEmptyGo offs d cur := by
  intro d
  induction d with
  | zero => intro cur; exact le_refl _
  | succ d ih =>
    intro cur
    rw [skipEmptyGo]
    split
    · exact le_trans (Nat.le_succ cur) (ih (cur + 1))
    · exact le_refl _

theorem skipEmptyGo_skipped (offs : List Nat) :
    ∀ (d cur j : Nat), cur ≤ j → j < skipEmptyGo offs d cur →
    offs.getD (j + 1) 0 = offs.getD j 0 := by
  intro d
  induction d with
  | zero =>
    intro cur j h1 h2
    rw [skipEmptyGo] at h2
    omega
  | succ d ih =>
    intro cur j h1 h2
    rw [skipEmptyGo] at h2
    split at h2
    · rcases Nat.eq_or_lt_of_le h1 with rfl | hlt
      · next hcond => exact hcond.2
      · exact ih (cur + 1) j hlt h2
    · omega

theorem finished_skip_empty (c : SpillCursor β) :
    (SpillCursor.skip_empty_partitions c).spill = c.spill ∧
    c.cur ≤ (SpillCursor.skip_empty_partitions c).cur ∧
    ∀ j, c.cur ≤ j → j < (SpillCursor.skip_empty_partitions c).cur →
      c.spill.offsets.getD (j + 1) 0 = c.spill.offsets.getD j 0 :=
  ⟨rfl, skipEmptyGo_ge _ _ _, fun j h1 h2 => skipEmptyGo_skipped _ _ _ j h1 h2⟩

theorem partSlice_empty_of_eq {s : SpillModel β} {p : Nat}
    (h : s.offsets.getD (p + 1) 0 = s.offsets.getD p 0) :
    partSlice s p = [] := by
  unfold partSlice
  rw [h]
  simp

theorem minIdx_lt (l : List Nat) (h : l ≠ []) : minIdx l < l.length := by
  induction l with
  | nil => exact absurd rfl h
  | cons x tail ih =>
    cases tail with
    | nil => simp [minIdx]
    | cons y rest =>
      rw [minIdx]
      split
      · simp
      · have := ih (by simp)
        simpa using this

theorem minIdx_le (l : List Nat) : ∀ j, j < l.length →
    l.getD (minIdx l) 0 ≤ l.getD j 0 := by
  induction l with
  | nil => intro j hj; simp at hj
  | cons x tail ih =>
    cases tail with
    | nil =>
      intro j hj
      have : j = 0 := by simpa using hj
      subst this
      exact le_refl _
    | cons y rest =>
      intro j hj
      rw [minIdx]
      split
      · next hc =>
        cases j with
        | zero => exact le_refl _
        | succ j =>
          have hj' : j < (y :: rest).length := by simpa using hj
          calc (x :: y :: rest).getD 0 0 = x := rfl
            _ ≤ (y :: rest).getD (minIdx (y :: rest)) 0 := hc
            _ ≤ (y :: rest).getD j 0 := ih j hj'
            _ = (x :: y :: rest).getD (j + 1) 0 := by rw [List.getD_cons_succ]
      · next hc =>
        push_neg at hc
        cases j with
        | zero =>
          rw [List.getD_cons_succ]
          calc (y :: rest).getD (minIdx (y :: rest)) 0
              ≤ x := le_of_lt hc
            _ = (x :: y :: rest).getD 0 0 := rfl
        | succ j =>
          rw [List.getD_cons_succ, List.getD_cons_succ]
          exact ih j (by simpa using hj)

theorem minIdx_left (l : List Nat) : ∀ j, j < minIdx l →
    l.getD (minIdx l) 0 < l.getD j 0 := by
  induction l with
  | nil => intro j hj; simp [minIdx] at hj
  | cons x tail ih =>
    cases tail with
    | nil => intro j hj; simp [minIdx] at hj
    | cons y rest =>
      intro j hj
      rw [minIdx] at hj ⊢
      by_cases hc : x ≤ (y :: rest).getD (minIdx (y :: rest)) 0
      · rw [if_pos hc] at hj
        omega
      · rw [if_neg hc] at hj ⊢
        push_neg at hc
        cases j with
        | zero =>
          rw [List.getD_cons_succ]
          exact hc
        | succ j =>
          rw [List.getD_cons_succ, List.getD_cons_succ]
          have hj' : j < minIdx (y :: rest) := by omega
          exact ih j hj'

theorem getD_map_cur (cs : List (SpillCursor β)) (k : Nat) (hk : k < cs.length) :
    (cs.map (fun c => c.cur)).getD k 0 = (cs.getD k ⟨⟨[], []⟩, 0⟩).cur := by
  have hk' : k < (cs.map (fun c => c.cur)).length := by simpa using hk
  rw [getD_eq_get _ hk', getD_eq_get _ hk]
  simp

/-! #### contribAt and restRange algebra -/

theorem contribAt_nil (p : Nat) : contribAt ([] : List (SpillCursor β)) p = [] := rfl

theorem contribAt_append (l1 l2 : List (SpillCursor β)) (p : Nat) :
    contribAt (l1 ++ l2) p = contribAt l1 p ++ contribAt l2 p := by
  unfold contribAt
  rw [List.filter_append, List.flatMap_append]

theorem contribAt_cons_of_le {c : SpillCursor β} (cs : List (SpillCursor β)) {p : Nat}
    (h : c.cur ≤ p) :
    contribAt (c :: cs) p = partSlice c.spill p ++ contribAt cs p := by
  unfold contribAt
  rw [List.filter_cons_of_pos (by simpa using h), List.flatMap_cons]

theorem contribAt_cons_of_gt {c : SpillCursor β} (cs : List (SpillCursor β)) {p : Nat}
    (h : p < c.cur) : contribAt (c :: cs) p = contribAt cs p := by
  unfold contribAt
  rw [List.filter_cons_of_neg (by simpa using Nat.not_le_of_lt h)]

theorem contribAt_eq_nil {cs : List (SpillCursor β)} {p : Nat}
    (h : ∀ c ∈ cs, p < c.cur) : contribAt cs p = [] := by
  unfold contribAt
  rw [List.filter_eq_nil_iff.mpr]
  · rfl
  · intro c hc
    simpa using Nat.not_le_of_lt (h c hc)

theorem restRange_nil (a b : Nat) : restRange ([] : List (SpillCursor β)) a b = [] := by
  unfold restRange
  induction List.range' a (b - a) with
  | nil => rfl
  | cons x xs ih => rw [List.flatMap_cons, ih, contribAt_nil]; rfl

theorem restRange_of_ge {cs : List (SpillCursor β)} {a b : Nat} (h : b ≤ a) :
    restRange cs a b = [] := by
  unfold restRange
  have hz : b - a = 0 := by omega
  rw [hz]
  rfl

theorem restRange_split (cs : List (SpillCursor β)) {a m b : Nat}
    (h1 : a ≤ m) (h2 : m ≤ b) :
    restRange cs a b = restRange cs a m ++ restRange cs m b := by
  unfold restRange
  have hsplit : List.range' a (b - a) =
      List.range' a (m - a) ++ List.range' m (b - m) := by
    have h3 : b - a = (b - m) + (m - a) := by omega
    rw [h3]
    have h4 := List.range'_append a (m - a) (b - m) 1
    simp only [Nat.one_mul] at h4
    rw [show a + (m - a) = m from by omega] at h4
    exact h4.symm
  rw [hsplit, List.flatMap_append]

theorem restRange_peel (cs : List (SpillCursor β)) {a b : Nat} (h : a < b) :
    restRange cs a b = contribAt cs a ++ restRange cs (a + 1) b := by
  unfold restRange
  rw [show b - a = (b - (a + 1)) + 1 from by omega, List.range'_succ, List.flatMap_cons]

theorem restRange_congr {cs cs2 : List (SpillCursor β)} {a b : Nat}
    (h : ∀ p, a ≤ p → p < b → contribAt cs p = contribAt cs2 p) :
    restRange cs a b = restRange cs2 a b := by
  unfold restRange
  rw [List.flatMap_def, List.flatMap_def]
  congr 1
  apply List.map_congr_left
  intro p hp
  have hm := List.mem_range'_1.mp hp
  exact h p hm.1 (by omega)

theorem restRange_all_nil {cs : List (SpillCursor β)} {a b : Nat}
    (h : ∀ p, a ≤ p → p < b → contribAt cs p = []) :
    restRange cs a b = [] := by
  calc restRange cs a b = restRange ([] : List (SpillCursor β)) a b := by
        apply restRange_congr
        intro p h1 h2
        rw [h p h1 h2, contribAt_nil]
    _ = [] := restRange_nil a b

/-! #### List surgery and measure lemmas -/

theorem cs_decomp (cs : List (SpillCursor β)) (k : Nat) (hk : k < cs.length) :
    cs = cs.take k ++ cs.getD k ⟨⟨[], []⟩, 0⟩ :: cs.drop (k + 1) := by
  rw [getD_eq_get _ hk, List.get_eq_getElem]
  conv_lhs => rw [← List.take_append_drop k cs]
  congr 1
  exact (List.getElem_cons_drop cs k hk).symm

theorem mergeMeasure_append (l1 l2 : List (SpillCursor β)) :
    mergeMeasure (l1 ++ l2) = mergeMeasure l1 + mergeMeasure l2 := by
  unfold mergeMeasure
  rw [List.map_append, List.sum_append, List.length_append]
  omega

theorem mergeMeasure_cons (c : SpillCursor β) (cs : List (SpillCursor β)) :
    mergeMeasure (c :: cs) =
      (c.spill.offsets.length - c.cur) + 1 + mergeMeasure cs := by
  unfold mergeMeasure
  rw [List.map_cons, List.sum_cons, List.length_cons]
  omega

theorem mem_take_cur_gt {cs : List (SpillCursor β)} {k : Nat} {m : Nat}
    (hleft : ∀ j, j < k → j < cs.length → m < (cs.getD j ⟨⟨[], []⟩, 0⟩).cur) :
    ∀ c' ∈ cs.take k, m < c'.cur := by
  intro c' hc'
  obtain ⟨j, hj, hjx⟩ := List.mem_iff_getElem.mp hc'
  have hjk : j < k := by
    have := List.length_take k cs ▸ hj
    omega
  have hjl : j < cs.length := by
    have := List.length_take k cs ▸ hj
    omega
  have hx : (cs.take k)[j] = cs[j] := List.getElem_take ..
  have := hleft j hjk hjl
  rw [getD_eq_get _ hjl, List.get_eq_getElem] at this
  rw [← hjx, hx]
  exact this

/-! #### The merge loop specification -/

theorem finished_false_lt {c : SpillCursor β} {N : Nat}
    (hw : c.spill.offsets.length = N + 1) (h : c.finished = false) : c.cur < N := by
  unfold SpillCursor.finished at h
  rw [hw] at h
  simp at h
  omega

theorem finished_true_ge {c : SpillCursor β} {N : Nat}
    (hw : c.spill.offsets.length = N + 1) (h : c.finished = true) : N ≤ c.cur := by
  unfold SpillCursor.finished at h
  rw [hw] at h
  simp at h
  omega

/-- Precondition of the merge loop: every live cursor has a full-size
offsets table, is unfinished, and sits at or after the output's current
partition. -/
def MergeHyp (N : Nat) (cs : List (SpillCursor β)) (st : MergeState β) : Prop :=
  (∀ c ∈ cs, c.spill.offsets.length = N + 1) ∧
  (∀ c ∈ cs, c.finished = false) ∧
  (∀ c ∈ cs, st.cur_partition_id ≤ c.cur)

/-- Postcondition of the merge loop: it returns, appending exactly the
bytes still owed by the cursors (partition-major, cursor order within a
partition), and the offsets pushed record the byte positions where each
partition's data starts. -/
def MergeConcl (N fuel : Nat) (cs : List (SpillCursor β)) (st : MergeState β) : Prop :=
  ∃ fp, st.cur_partition_id ≤ fp ∧
    (cs = [] → fp = st.cur_partition_id) ∧
    (cs ≠ [] → fp < N) ∧
    (∀ p, fp < p → p < N → contribAt cs p = []) ∧
    mergeLoop fuel cs st = .ok
      ⟨st.offsets ++
          (List.range' (st.cur_partition_id + 1) (fp - st.cur_partition_id)).map
            (fun q => st.data.length + (restRange cs st.cur_partition_id q).length),
        st.data ++ restRange cs st.cur_partition_id N,
        fp⟩

/-- One step of the merge loop, assembled: if the step relates `cs` to a
successor list `cs2` satisfying the bookkeeping identities, the
postcondition transfers from `cs2` to `cs`. -/
theorem mergeLoop_assemble {β : Type} {N : Nat} (fuel : Nat)
    (ih : ∀ (cs : List (SpillCursor β)) (st : MergeState β),
      MergeHyp N cs st → mergeMeasure cs < fuel → MergeConcl N fuel cs st)
    (cs cs2 : List (SpillCursor β)) (st : MergeState β) (c : SpillCursor β)
    (hcs_ne : cs ≠ [])
    (hcm : st.cur_partition_id ≤ c.cur)
    (hmN : c.cur < N)
    (hlow : ∀ p, p < c.cur → contribAt cs p = [])
    (hP1 : contribAt cs c.cur = partSlice c.spill c.cur ++ contribAt cs2 c.cur)
    (hP2 : ∀ p, c.cur < p → p < N → contribAt cs p = contribAt cs2 p)
    (hhyp2 : MergeHyp N cs2
      ⟨st.offsets ++ List.replicate (c.cur - st.cur_partition_id) st.data.length,
        st.data ++ partSlice c.spill c.cur, c.cur⟩)
    (hmeas2 : mergeMeasure cs2 < fuel)
    (hrun : mergeLoop (fuel + 1) cs st = mergeLoop fuel cs2
      ⟨st.offsets ++ List.replicate (c.cur - st.cur_partition_id) st.data.length,
        st.data ++ partSlice c.spill c.cur, c.cur⟩) :
    MergeConcl N (fuel + 1) cs st := by
  obtain ⟨fp, hfp1, hfp2, hfp3, hfp4, hfp5⟩ := ih cs2
    ⟨st.offsets ++ List.replicate (c.cur - st.cur_partition_id) st.data.length,
      st.data ++ partSlice c.spill c.cur, c.cur⟩ hhyp2 hmeas2
  simp only [] at hfp1 hfp2 hfp3 hfp4 hfp5
  have hfpN : fp < N := by
    by_cases h2 : cs2 = []
    · have := hfp2 h2
      omega
    · exact hfp3 h2
  -- partitions strictly below c.cur contribute nothing
  have key1 : ∀ q, q ≤ c.cur → restRange cs st.cur_partition_id q = [] := by
    intro q hq
    apply restRange_all_nil
    intro p _ hp2
    exact hlow p (by omega)
  -- partitions from c.cur on: one slice is peeled off, the rest transfers
  have key2 : ∀ q, c.cur < q → q ≤ N →
      restRange cs st.cur_partition_id q =
        partSlice c.spill c.cur ++ restRange cs2 c.cur q := by
    intro q hq1 hq2
    rw [restRange_split cs hcm (le_of_lt hq1), key1 c.cur (le_refl _),
      List.nil_append, restRange_peel cs hq1, hP1]
    have hcong : restRange cs (c.cur + 1) q = restRange cs2 (c.cur + 1) q := by
      apply restRange_congr
      intro p hp1 hp2
      exact hP2 p (by omega) (by omega)
    rw [hcong, restRange_peel cs2 hq1, List.append_assoc]
  refine ⟨fp, by omega, fun h => absurd h hcs_ne, fun _ => hfpN, ?_, ?_⟩
  · intro p hp1 hp2
    have hpm : c.cur < p := by omega
    rw [hP2 p hpm hp2]
    exact hfp4 p hp1 hp2
  · rw [hrun, hfp5]
    have hdata : st.data ++ restRange cs st.cur_partition_id N =
        (st.data ++ partSlice c.spill c.cur) ++ restRange cs2 c.cur N := by
      rw [key2 N hmN (le_refl N), List.append_assoc]
    have hoffs : st.offsets ++
        (List.range' (st.cur_partition_id + 1) (fp - st.cur_partition_id)).map
          (fun q => st.data.length + (restRange cs st.cur_partition_id q).length) =
        (st.offsets ++ List.replicate (c.cur - st.cur_partition_id) st.data.length) ++
        (List.range' (c.cur + 1) (fp - c.cur)).map
          (fun q => (st.data ++ partSlice c.spill c.cur).length +
            (restRange cs2 c.cur q).length) := by
      have hrange : List.range' (st.cur_partition_id + 1) (fp - st.cur_partition_id) =
          List.range' (st.cur_partition_id + 1) (c.cur - st.cur_partition_id) ++
          List.range' (c.cur + 1) (fp - c.cur) := by
        have h3 : fp - st.cur_partition_id =
            (fp - c.cur) + (c.cur - st.cur_partition_id) := by omega
        rw [h3]
        have h4 := List.range'_append (st.cur_partition_id + 1)
          (c.cur - st.cur_partition_id) (fp - c.cur) 1
        simp only [Nat.one_mul] at h4
        rw [show st.cur_partition_id + 1 + (c.cur - st.cur_partition_id) = c.cur + 1
          from by omega] at h4
        exact h4.symm
      rw [hrange, List.map_append]
      have hpart1 : (List.range' (st.cur_partition_id + 1)
            (c.cur - st.cur_partition_id)).map
            (fun q => st.data.length + (restRange cs st.cur_partition_id q).length) =
          List.replicate (c.cur - st.cur_partition_id) st.data.length := by
        have hcongr : (List.range' (st.cur_partition_id + 1)
              (c.cur - st.cur_partition_id)).map
              (fun q => st.data.length + (restRange cs st.cur_partition_id q).length) =
            (List.range' (st.cur_partition_id + 1)
              (c.cur - st.cur_partition_id)).map
              (fun _ => st.data.length) := by
          apply List.map_congr_left
          intro q hq
          have hmem := List.mem_range'_1.mp hq
          rw [key1 q (by omega)]
          simp
        rw [hcongr, List.map_const', List.length_range']
      have hpart2 : (List.range' (c.cur + 1) (fp - c.cur)).map
            (fun q => st.data.length + (restRange cs st.cur_partition_id q).length) =
          (List.range' (c.cur + 1) (fp - c.cur)).map
            (fun q => (st.data ++ partSlice c.spill c.cur).length +
              (restRange cs2 c.cur q).length) := by
        apply List.map_congr_left
        intro q hq
        have hmem := List.mem_range'_1.mp hq
        rw [key2 q (by omega) (by omega), List.length_append, List.length_append]
        omega
      rw [hpart1, hpart2, List.append_assoc]
    rw [hdata, hoffs]

/-- Unfolding one iteration of the merge loop into the explicit
successor list and state. -/
theorem mergeLoop_cons_eq {β : Type} (fuel : Nat) (c0 : SpillCursor β)
    (rest : List (SpillCursor β)) (st : MergeState β)
    (k : Nat) (c : SpillCursor β)
    (hk : k = minIdx ((c0 :: rest).map (fun c => c.cur)))
    (hc : c = (c0 :: rest).getD k ⟨⟨[], []⟩, 0⟩)
    (hcm : st.cur_partition_id ≤ c.cur) :
    mergeLoop (fuel + 1) (c0 :: rest) st =
      mergeLoop fuel
        (if (SpillCursor.skip_empty_partitions ⟨c.spill, c.cur + 1⟩).finished
         then (c0 :: rest).eraseIdx k
         else (c0 :: rest).set k (SpillCursor.skip_empty_partitions ⟨c.spill, c.cur + 1⟩))
        ⟨st.offsets ++ List.replicate (c.cur - st.cur_partition_id) st.data.length,
          st.data ++ partSlice c.spill c.cur, c.cur⟩ := by
  subst hk
  subst hc
  conv_lhs => rw [mergeLoop]
  simp only [pushOffsetsWhile_spec]
  rw [show max st.cur_partition_id
      (((c0 :: rest).getD (minIdx ((c0 :: rest).map (fun c => c.cur)))
        ⟨⟨[], []⟩, 0⟩).cur) =
      ((c0 :: rest).getD (minIdx ((c0 :: rest).map (fun c => c.cur)))
        ⟨⟨[], []⟩, 0⟩).cur from by omega]
  rfl

theorem mergeLoop_spec {β : Type} (N : Nat) :
    ∀ (fuel : Nat) (cs : List (SpillCursor β)) (st : MergeState β),
    MergeHyp N cs st → mergeMeasure cs < fuel → MergeConcl N fuel cs st := by
  intro fuel
  induction fuel with
  | zero =>
    intro cs st _ hm
    omega
  | succ fuel ih =>
    intro cs st hhyp hm
    obtain ⟨hwf, hnf, hcur⟩ := hhyp
    cases cs with
    | nil =>
      refine ⟨st.cur_partition_id, le_refl _, fun _ => rfl, fun h => absurd rfl h,
        fun p _ _ => contribAt_nil p, ?_⟩
      have h1 : mergeLoop (fuel + 1) ([] : List (SpillCursor β)) st = .ok st := rfl
      rw [h1, restRange_nil, Nat.sub_self]
      simp
    | cons c0 rest =>
      set k := minIdx ((c0 :: rest).map (fun c => c.cur)) with hk_def
      have hk : k < (c0 :: rest).length := by
        have h1 := minIdx_lt ((c0 :: rest).map (fun c => c.cur)) (by simp)
        rw [← hk_def] at h1
        simpa using h1
      set c := (c0 :: rest).getD k ⟨⟨[], []⟩, 0⟩ with hc_def
      have hc_mem : c ∈ (c0 :: rest) := by
        rw [hc_def, getD_eq_get _ hk, List.get_eq_getElem]
        exact List.getElem_mem hk
      have hmin : ∀ x ∈ (c0 :: rest), c.cur ≤ x.cur := by
        intro x hx
        obtain ⟨j, hj, hjx⟩ := List.mem_iff_getElem.mp hx
        have h1 := minIdx_le ((c0 :: rest).map (fun y => y.cur)) j (by simpa using hj)
        rw [← hk_def, getD_map_cur _ k hk, getD_map_cur _ j hj, ← hc_def] at h1
        rw [getD_eq_get _ hj, List.get_eq_getElem, hjx] at h1
        exact h1
      have hleft : ∀ j, j < k → j < (c0 :: rest).length →
          c.cur < ((c0 :: rest).getD j ⟨⟨[], []⟩, 0⟩).cur := by
        intro j hj hjl
        have h1 := minIdx_left ((c0 :: rest).map (fun y => y.cur)) j (by rwa [← hk_def])
        rw [← hk_def, getD_map_cur _ k hk, getD_map_cur _ j hjl, ← hc_def] at h1
        exact h1
      have hwfc := hwf c hc_mem
      have hnfc := hnf c hc_mem
      have hmN : c.cur < N := finished_false_lt hwfc hnfc
      have hcm : st.cur_partition_id ≤ c.cur := hcur c hc_mem
      set c2 := SpillCursor.skip_empty_partitions ⟨c.spill, c.cur + 1⟩ with hc2_def
      have hc2_spill : c2.spill = c.spill := rfl
      have hc2_ge : c.cur + 1 ≤ c2.cur := skipEmptyGo_ge _ _ _
      have hc2_skip : ∀ p, c.cur + 1 ≤ p → p < c2.cur → partSlice c.spill p = [] := by
        intro p h1 h2
        exact partSlice_empty_of_eq (skipEmptyGo_skipped _ _ _ p h1 h2)
      have hc2_wf : c2.spill.offsets.length = N + 1 := by
        rw [hc2_spill]
        exact hwfc
      have hdecomp : (c0 :: rest) =
          (c0 :: rest).take k ++ c :: (c0 :: rest).drop (k + 1) := by
        rw [hc_def]
        exact cs_decomp (c0 :: rest) k hk
      have htake_gt : ∀ x ∈ (c0 :: rest).take k, c.cur < x.cur :=
        mem_take_cur_gt hleft
      have hlow : ∀ p, p < c.cur → contribAt (c0 :: rest) p = [] := by
        intro p hp
        exact contribAt_eq_nil (fun x hx => lt_of_lt_of_le hp (hmin x hx))
      have hmeas_decomp : mergeMeasure (c0 :: rest) =
          mergeMeasure ((c0 :: rest).take k) +
          ((c.spill.offsets.length - c.cur) + 1 +
            mergeMeasure ((c0 :: rest).drop (k + 1))) := by
        conv_lhs => rw [hdecomp]
        rw [mergeMeasure_append, mergeMeasure_cons]
      have hstep := mergeLoop_cons_eq fuel c0 rest st k c hk_def hc_def hcm
      rw [← hc2_def] at hstep
      cases hfin : c2.finished with
      | true =>
        rw [hfin] at hstep
        rw [if_pos rfl] at hstep
        have hc2N : N ≤ c2.cur := finished_true_ge hc2_wf hfin
        have herase : (c0 :: rest).eraseIdx k =
            (c0 :: rest).take k ++ (c0 :: rest).drop (k + 1) :=
          List.eraseIdx_eq_take_drop_succ ..
        have hP1 : contribAt (c0 :: rest) c.cur =
            partSlice c.spill c.cur ++ contribAt ((c0 :: rest).eraseIdx k) c.cur := by
          conv_lhs => rw [hdecomp]
          rw [contribAt_append, contribAt_cons_of_le _ (le_refl c.cur),
            contribAt_eq_nil htake_gt, herase, contribAt_append,
            contribAt_eq_nil htake_gt]
          simp
        have hP2 : ∀ p, c.cur < p → p < N →
            contribAt (c0 :: rest) p = contribAt ((c0 :: rest).eraseIdx k) p := by
          intro p hp1 hp2
          have hslice : partSlice c.spill p = [] := hc2_skip p (by omega) (by omega)
          conv_lhs => rw [hdecomp]
          rw [contribAt_append, contribAt_cons_of_le _ (by omega : c.cur ≤ p), hslice,
            herase, contribAt_append]
          simp
        have hhyp2 : MergeHyp N ((c0 :: rest).eraseIdx k)
            ⟨st.offsets ++ List.replicate (c.cur - st.cur_partition_id) st.data.length,
              st.data ++ partSlice c.spill c.cur, c.cur⟩ := by
          refine ⟨?_, ?_, ?_⟩
          · intro x hx
            exact hwf x (List.mem_of_mem_eraseIdx hx)
          · intro x hx
            exact hnf x (List.mem_of_mem_eraseIdx hx)
          · intro x hx
            exact hmin x (List.mem_of_mem_eraseIdx hx)
        have hmeas2 : mergeMeasure ((c0 :: rest).eraseIdx k) < fuel := by
          have h2 : mergeMeasure ((c0 :: rest).eraseIdx k) =
              mergeMeasure ((c0 :: rest).take k) +
              mergeMeasure ((c0 :: rest).drop (k + 1)) := by
            rw [herase, mergeMeasure_append]
          omega
        exact mergeLoop_assemble fuel ih (c0 :: rest) _ st c (by simp) hcm hmN hlow
          hP1 hP2 hhyp2 hmeas2 hstep
      | false =>
        rw [hfin] at hstep
        rw [if_neg (by simp)] at hstep
        have hset : (c0 :: rest).set k c2 =
            (c0 :: rest).take k ++ c2 :: (c0 :: rest).drop (k + 1) :=
          List.set_eq_take_cons_drop c2 hk
        have hP1 : contribAt (c0 :: rest) c.cur =
            partSlice c.spill c.cur ++ contribAt ((c0 :: rest).set k c2) c.cur := by
          conv_lhs => rw [hdecomp]
          rw [contribAt_append, contribAt_cons_of_le _ (le_refl c.cur),
            contribAt_eq_nil htake_gt, hset, contribAt_append,
            contribAt_eq_nil htake_gt, contribAt_cons_of_gt _ (by omega : c.cur < c2.cur)]
          simp
        have hP2 : ∀ p, c.cur < p → p < N →
            contribAt (c0 :: rest) p = contribAt ((c0 :: rest).set k c2) p := by
          intro p hp1 hp2
          conv_lhs => rw [hdecomp]
          rw [contribAt_append, contribAt_cons_of_le _ (by omega : c.cur ≤ p), hset,
            contribAt_append]
          rcases Nat.lt_or_ge p c2.cur with hpc | hpc
          · have hslice : partSlice c.spill p = [] := hc2_skip p (by omega) hpc
            rw [contribAt_cons_of_gt _ hpc, hslice]
            simp
          · rw [contribAt_cons_of_le _ hpc, hc2_spill]
        have hhyp2 : MergeHyp N ((c0 :: rest).set k c2)
            ⟨st.offsets ++ List.replicate (c.cur - st.cur_partition_id) st.data.length,
              st.data ++ partSlice c.spill c.cur, c.cur⟩ := by
          have hmem2 : ∀ x ∈ (c0 :: rest).set k c2, x ∈ (c0 :: rest) ∨ x = c2 := by
            intro x hx
            rw [hset] at hx
            rcases List.mem_append.mp hx with hx | hx
            · exact Or.inl (List.mem_of_mem_take hx)
            · rcases List.mem_cons.mp hx with hx | hx
              · exact Or.inr hx
              · exact Or.inl (List.mem_of_mem_drop hx)
          refine ⟨?_, ?_, ?_⟩
          · intro x hx
            rcases hmem2 x hx with h | rfl
            · exact hwf x h
            · exact hc2_wf
          · intro x hx
            rcases hmem2 x hx with h | rfl
            · exact hnf x h
            · exact hfin
          · intro x hx
            rcases hmem2 x hx with h | rfl
            · exact hmin x h
            · show c.cur ≤ c2.cur
              omega
        have hmeas2 : mergeMeasure ((c0 :: rest).set k c2) < fuel := by
          have h2 : mergeMeasure ((c0 :: rest).set k c2) =
              mergeMeasure ((c0 :: rest).take k) +
              ((c2.spill.offsets.length - c2.cur) + 1 +
                mergeMeasure ((c0 :: rest).drop (k + 1))) := by
            rw [hset, mergeMeasure_append, mergeMeasure_cons]
          have h3 : c2.spill.offsets.length = c.spill.offsets.length := by
            rw [hc2_spill]
          rw [h3] at h2
          omega
        exact mergeLoop_assemble fuel ih (c0 :: rest) _ st c (by simp) hcm hmN hlow
          hP1 hP2 hhyp2 hmeas2 hstep

/-- The initial cursor collection of `shuffle_write` owes each partition
`p < N` exactly the concatenation of that partition's slices, in spill
order: dropped (empty) cursors and skipped partitions contribute `[]`. -/
theorem contribAt_initial {β : Type} {N : Nat} :
    ∀ (spills : List (SpillModel β)), (∀ s ∈ spills, s.offsets.length = N + 1) →
    ∀ p, p < N →
    contribAt ((spills.map (fun spill =>
        SpillCursor.skip_empty_partitions ⟨spill, 0⟩)).filter
      (fun c => ! c.finished)) p = spills.flatMap (fun s => partSlice s p) := by
  intro spills
  induction spills with
  | nil => intro _ p _; rfl
  | cons s rest ih =>
    intro hwf p hp
    have hwfs : s.offsets.length = N + 1 := hwf s (by simp)
    have hwfr : ∀ t ∈ rest, t.offsets.length = N + 1 := fun t ht => hwf t (by simp [ht])
    rw [List.map_cons, List.flatMap_cons]
    set c := SpillCursor.skip_empty_partitions (⟨s, 0⟩ : SpillCursor β) with hc_def
    have hcs : c.spill = s := rfl
    have hskip : ∀ j, j < c.cur → s.offsets.getD (j + 1) 0 = s.offsets.getD j 0 := by
      intro j hj
      exact skipEmptyGo_skipped s.offsets _ 0 j (Nat.zero_le j) hj
    cases hfin : c.finished with
    | true =>
      rw [List.filter_cons_of_neg (by simp [hfin])]
      have hcN : N ≤ c.cur := finished_true_ge (by rw [hcs]; exact hwfs) hfin
      have hempty : partSlice s p = [] := partSlice_empty_of_eq (hskip p (by omega))
      rw [hempty, ih hwfr p hp, List.nil_append]
    | false =>
      rw [List.filter_cons_of_pos (by simp [hfin])]
      rcases Nat.lt_or_ge p c.cur with hpc | hpc
      · have hempty : partSlice s p = [] := partSlice_empty_of_eq (hskip p hpc)
        rw [contribAt_cons_of_gt _ hpc, hempty, ih hwfr p hp, List.nil_append]
      · rw [contribAt_cons_of_le _ hpc, hcs, ih hwfr p hp]

/-- For `q ≤ N`, the initial cursors owe the reference data of the first
`q` partitions. -/
theorem restRange_zero_eq_refData {β : Type} {N : Nat}
    (spills : List (SpillModel β))
    (hwf : ∀ s ∈ spills, s.offsets.length = N + 1) (q : Nat) (hq : q ≤ N) :
    restRange ((spills.map (fun spill =>
        SpillCursor.skip_empty_partitions ⟨spill, 0⟩)).filter
      (fun c => ! c.finished)) 0 q = refData spills q := by
  unfold restRange refData
  rw [Nat.sub_zero, ← List.range_eq_range']
  have h1 : ∀ p ∈ List.range q,
      contribAt ((spills.map (fun spill =>
          SpillCursor.skip_empty_partitions ⟨spill, 0⟩)).filter
        (fun c => ! c.finished)) p = spills.flatMap (fun s => partSlice s p) := by
    intro p hp
    exact contribAt_initial spills hwf p (by have := List.mem_range.mp hp; omega)
  rw [List.flatMap, List.flatMap, List.map_congr_left h1]

/-- `shuffle_write`'s merge produces exactly the reference data (all
partitions ascending, spill order within a partition), and its offsets
table lists, for each partition, the byte position where that
partition's data begins (equivalently, the total size of all earlier
partitions). -/
theorem merge_eq_ref {β : Type} (spills : List (SpillModel β)) (N : Nat)
    (hwf : ∀ s ∈ spills, s.offsets.length = N + 1) :
    shuffle_write_merge spills N =
      .ok (refData spills N,
        (List.range (N + 1)).map (fun p => (refData spills p).length)) := by
  set cursors := (spills.map (fun spill =>
      SpillCursor.skip_empty_partitions ⟨spill, 0⟩)).filter
      (fun c => ! c.finished) with hcursors
  have hhyp : MergeHyp N cursors (⟨[0], [], 0⟩ : MergeState β) := by
    refine ⟨?_, ?_, ?_⟩
    · intro c hc
      rw [hcursors] at hc
      have h1 := List.mem_of_mem_filter hc
      obtain ⟨s, hs, rfl⟩ := List.mem_map.mp h1
      exact hwf s hs
    · intro c hc
      rw [hcursors] at hc
      have h2 := List.of_mem_filter hc
      simpa using h2
    · intro c hc
      exact Nat.zero_le _
  obtain ⟨fp, hfp1, hfp2, hfp3, hfp4, hfp5⟩ :=
    mergeLoop_spec N (mergeMeasure cursors + 1) cursors ⟨[0], [], 0⟩ hhyp
      (Nat.lt_succ_self _)
  have hfp0 : cursors = [] → fp = 0 := fun h => (hfp2 h).trans rfl
  have hfpN : fp ≤ N := by
    by_cases h2 : cursors = []
    · rw [hfp0 h2]
      exact Nat.zero_le N
    · exact le_of_lt (hfp3 h2)
  have hdataN : restRange cursors 0 N = refData spills N :=
    restRange_zero_eq_refData spills hwf N (le_refl N)
  have hstable : ∀ q, fp < q → q ≤ N → refData spills q = refData spills N := by
    intro q hq1 hq2
    unfold refData
    rw [List.range_eq_range' q, List.range_eq_range' N]
    have h4 := List.range'_append 0 q (N - q) 1
    simp only [Nat.one_mul, Nat.zero_add] at h4
    rw [show N - q + q = N from by omega] at h4
    rw [← h4, List.flatMap_append]
    have hnil : (List.range' q (N - q)).flatMap
        (fun p => spills.flatMap (fun s => partSlice s p)) = [] := by
      rw [List.flatMap_eq_nil_iff]
      intro p hp
      have hpm := List.mem_range'_1.mp hp
      rw [← contribAt_initial spills hwf p (by omega)]
      exact hfp4 p (by omega) (by omega)
    rw [hnil, List.append_nil]
  have hunfold : shuffle_write_merge spills N =
      Except.bind (mergeLoop (mergeMeasure cursors + 1) cursors
          (⟨[0], [], 0⟩ : MergeState β))
        (fun st => Except.ok
          (st.data, rustResize st.offsets (N + 1) st.data.length)) := rfl
  have hrunFinal : shuffle_write_merge spills N =
      .ok (([] : List β) ++ restRange cursors 0 N,
        rustResize ([0] ++ (List.range' (0 + 1) (fp - 0)).map
            (fun q => ([] : List β).length + (restRange cursors 0 q).length))
          (N + 1)
          (([] : List β) ++ restRange cursors 0 N).length) := by
    rw [hunfold, hfp5]
    rfl
  rw [hrunFinal, List.nil_append]
  refine congrArg Except.ok ?_
  rw [Prod.mk.injEq]
  refine ⟨hdataN, ?_⟩
  have hoffs : ([0] ++ (List.range' (0 + 1) (fp - 0)).map
      (fun q => ([] : List β).length + (restRange cursors 0 q).length)) =
      0 :: (List.range' 1 fp).map (fun q => (restRange cursors 0 q).length) := by
    simp
  rw [hoffs]
  unfold rustResize
  rw [List.take_of_length_le (by simp; omega), List.range_eq_range' (N + 1)]
  have h4 := List.range'_append 0 (fp + 1) (N - fp) 1
  simp only [Nat.one_mul, Nat.zero_add] at h4
  rw [show N - fp + (fp + 1) = N + 1 from by omega] at h4
  rw [← h4, List.map_append]
  have hgoal1 : 0 :: (List.range' 1 fp).map (fun q => (restRange cursors 0 q).length) =
      (List.range' 0 (fp + 1)).map (fun p => (refData spills p).length) := by
    rw [List.range'_succ 0 fp 1, List.map_cons]
    refine congrArg₂ List.cons rfl ?_
    rw [Nat.zero_add]
    apply List.map_congr_left
    intro q hq
    have hmem := List.mem_range'_1.mp hq
    rw [restRange_zero_eq_refData spills hwf q (by omega)]
  have hgoal2 : List.replicate (N + 1 -
        ((List.range' 0 (fp + 1)).map
          (fun p => (refData spills p).length)).length)
        (restRange cursors 0 N).length =
      (List.range' (fp + 1) (N - fp)).map (fun p => (refData spills p).length) := by
    have hcongr : (List.range' (fp + 1) (N - fp)).map
          (fun p => (refData spills p).length) =
        (List.range' (fp + 1) (N - fp)).map
          (fun _ => (restRange cursors 0 N).length) := by
      apply List.map_congr_left
      intro q hq
      have hmem := List.mem_range'_1.mp hq
      rw [hstable q (by omega) (by omega), hdataN]
    rw [hcongr, List.map_const', List.length_range']
    refine congrArg₂ List.replicate
      (by rw [List.length_map, List.length_range']; omega) rfl
  rw [hgoal1, hgoal2]

/-! #### Index-file facts -/

theorem length_i64le (n : Nat) : (i64le n).length = 8 := by
  unfold i64le
  rw [List.length_map, List.length_range]

theorem indexFileBytes_length (offs : List Nat) :
    (indexFileBytes offs).length = 8 * offs.length := by
  unfold indexFileBytes
  induction offs with
  | nil => rfl
  | cons a l ih =>
    rw [List.map_cons, List.flatten_cons, List.length_append, ih, length_i64le,
      List.length_cons]
    omega

theorem indexFileBytes_group (offs : List Nat) : ∀ i, i < offs.length →
    ((indexFileBytes offs).drop (8 * i)).take 8 = i64le (offs.getD i 0) := by
  induction offs with
  | nil =>
    intro i hi
    simp at hi
  | cons a l ih =>
    intro i hi
    cases i with
    | zero =>
      unfold indexFileBytes
      rw [List.map_cons, List.flatten_cons, Nat.mul_zero, List.drop_zero,
        show (8 : Nat) = (i64le a).length from (length_i64le a).symm,
        List.take_left, List.getD_cons_zero]
    | succ i =>
      unfold indexFileBytes
      rw [List.map_cons, List.flatten_cons,
        show 8 * (i + 1) = (i64le a).length + 8 * i from by rw [length_i64le]; omega,
        List.drop_append, List.getD_cons_succ]
      exact ih i (by simp at hi; omega)

/-! #### refData algebra -/

theorem refData_succ (spills : List (SpillModel β)) (p : Nat) :
    refData spills (p + 1) =
      refData spills p ++ spills.flatMap (fun s => partSlice s p) := by
  unfold refData
  rw [show List.range (p + 1) = List.range p ++ [p] from List.range_succ p,
    List.flatMap_append, List.flatMap_cons, List.flatMap_nil, List.append_nil]

theorem refData_le_append (spills : List (SpillModel β)) {p q : Nat} (h : p ≤ q) :
    refData spills q = refData spills p ++
      (List.range' p (q - p)).flatMap
        (fun r => spills.flatMap (fun s => partSlice s r)) := by
  unfold refData
  rw [List.range_eq_range' q, List.range_eq_range' p]
  have h4 := List.range'_append 0 p (q - p) 1
  simp only [Nat.one_mul, Nat.zero_add] at h4
  rw [show q - p + p = q from by omega] at h4
  rw [← h4, List.flatMap_append]

theorem refData_length_mono (spills : List (SpillModel β)) (p : Nat) :
    (refData spills p).length ≤ (refData spills (p + 1)).length := by
  rw [refData_succ, List.length_append]
  omega

theorem chain'_le_map_range (f : Nat → Nat) (n : Nat)
    (hf : ∀ p, f p ≤ f (p + 1)) :
    List.Chain' (· ≤ ·) ((List.range n).map f) := by
  rw [List.chain'_iff_get]
  intro i hi
  simp only [List.get_eq_getElem, List.getElem_map, List.getElem_range]
  exact hf i

theorem getD_map_range (f : Nat → Nat) (n p : Nat) (hp : p < n) :
    ((List.range n).map f).getD p 0 = f p := by
  have hp' : p < ((List.range n).map f).length := by simpa using hp
  rw [getD_eq_get _ hp']
  simp

/-! ### The repartitioner state machine -/

/-- An ingest batch as `insert_batch` sees it: the partition id of each
row (the evaluation of the output partitioning, source line 125), and
its `get_array_memory_size()` (source line 309). -/
structure Batch where
  pids : List Nat
  mem_size : Nat
deriving DecidableEq, Repr

/-- `struct FileSpillInfo` after promotion: the bytes now live in a temp
file (modeled by their content) and the offsets table stays in memory. -/
structure FileSpillInfo (β : Type) where
  content : List β
  offsets : List Nat
deriving DecidableEq, Repr

/-- Modelled from the spec: `InMemSpillInfo::mem_size()` lives in a crate
outside this repository; the spec defines it as "the length of its byte
vector plus `(N+1)*8`", and the offsets table has `N+1` entries. -/
def InMemSpillInfo.mem_size (s : InMemSpillInfo β) : Nat :=
  s.frozen.length + 8 * s.offsets.length

/-- Modelled from the spec: `into_file_spill` lives in a crate outside
this repository; the spec says promotion "writes the byte vector to a
temp file ... and drops the byte vector; the offsets table is retained
in memory". -/
def InMemSpillInfo.into_file_spill (s : InMemSpillInfo β) : FileSpillInfo β :=
  ⟨s.frozen, s.offsets⟩

/-- The mutable state of `SortShuffleRepartitioner` (source lines 44-58,
90-98): the ingest buffer, its write-only running size counter, the two
spill lists, and the metric counters `mem_used`, `spilled_bytes` and
`spill_count`. -/
structure RState (β : Type) where
  buffered_batches : List Batch
  buffered_mem_size : Nat
  in_mem_spills : List (InMemSpillInfo β)
  file_spills : List (FileSpillInfo β)
  mem_used : Nat
  spilled_bytes : Nat
  spill_count : Nat
deriving DecidableEq, Repr

/-- The state right after `new()` (source lines 85-99). -/
def initState (β : Type) : RState β := ⟨[], 0, [], [], 0, 0, 0⟩

/-- `insert_batch` (source lines 302-319). The memory manager's
`try_grow` is abstracted as a predicate `grant` on the requested size;
when the reservation fails, the error propagates before any state is
touched. -/
def insert_batch (grant : Nat → Bool) (st : RState β) (input : Batch) :
    RState β × Except Err Unit :=
  let mem_increase := input.mem_size * 2
  if grant mem_increase then
    ({ st with
        mem_used := st.mem_used + mem_increase,
        buffered_mem_size := st.buffered_mem_size + input.mem_size,
        buffered_batches := st.buffered_batches ++ [input] }, .ok ())
  else (st, .error .resourcesExhausted)

/-- `spill_buffered_to_in_mem` lifted to the repartitioner state (source
lines 104-198): nothing happens on an empty ingest buffer (lines
109-111); otherwise the buffered batches are concatenated (so their
partition-id lists concatenate), frozen into a new in-memory spill
appended to the list, and the buffer is emptied (`std::mem::take`,
line 121). The counting sort propagates its error. -/
def freezeStep (enc : List PI → List β) (batch_size N : Nat) (st : RState β) :
    Except Err (RState β) :=
  if st.buffered_batches = [] then .ok st
  else do
    let pids := (st.buffered_batches.map Batch.pids).flatten
    let sf ← freezePids enc batch_size N pids
    .ok { st with
      buffered_batches := [],
      in_mem_spills := st.in_mem_spills ++ [sf.1] }

/-- Index picked by `max_by_key` over the mem sizes (source lines
272-277): Rust's `max_by_key` returns the last maximal element. -/
def lastMaxIdx : List Nat → Nat
  | [] => 0
  | [_] => 0
  | x :: y :: rest =>
    let m := lastMaxIdx (y :: rest)
    if x > (y :: rest).getD m 0 then 0 else m + 1

/-- Fixed threshold `DISK_SPILL_BUFFERED_SIZE_LIMIT` (source line 232). -/
def DISK_SPILL_BUFFERED_SIZE_LIMIT : Nat := 16777216

/-- The promotion part of `spill()` (source lines 266-288): if no
in-memory spill exists fail with `ResourcesExhausted` (lines 266-270),
else remove the one with the largest `mem_size()`, turn it into a file
spill, subtract its size from `mem_used` and record the spill metrics,
returning the freed byte count. -/
def promotePart (st : RState β) : Except Err (RState β × Nat) :=
  if st.in_mem_spills.isEmpty then .error .resourcesExhausted
  else
    let pop_index := lastMaxIdx (st.in_mem_spills.map (fun s => s.mem_size))
    let pop_spill := st.in_mem_spills.getD pop_index ⟨[], []⟩
    let freed := pop_spill.mem_size
    .ok ({ st with
        in_mem_spills := st.in_mem_spills.eraseIdx pop_index,
        file_spills := st.file_spills ++ [pop_spill.into_file_spill],
        mem_used := st.mem_used - freed,
        spilled_bytes := st.spilled_bytes + freed,
        spill_count := st.spill_count + 1 }, freed)

/-- `spill()` (source lines 231-289). The returned flag is a ghost
record of whether the freeze branch (lines 247-263) ran. `freed` in the
freeze branch is `mem_used().set(in_mem_size).saturating_sub(in_mem_size)`
(lines 251-253): the freeze itself does not touch `mem_used`, so the old
value read by `set` is the state's `mem_used`. -/
def spillOp (enc : List PI → List β) (batch_size N : Nat) (st : RState β) :
    Bool × Except Err (RState β × Nat) :=
  let in_mem_size := (st.in_mem_spills.map (fun s => s.mem_size)).sum
  let buffered_size := st.mem_used - in_mem_size
  if st.in_mem_spills.isEmpty ∨ DISK_SPILL_BUFFERED_SIZE_LIMIT ≤ buffered_size then
    (true, do
      let st1 ← freezeStep enc batch_size N st
      let freed := st1.mem_used - in_mem_size
      let st2 := { st1 with mem_used := in_mem_size }
      if 0 < freed then .ok (st2, freed) else promotePart st2)
  else (false, promotePart st)

/-- `shuffle_write` up to the produced files (source lines 321-465):
spill the remaining buffered batches (line 326), drain the in-memory
spills first and the file spills after them (lines 385-389), and run
the merge. Returns the data-file bytes and the offsets serialized into
the index file. -/
def shuffle_write_op (enc : List PI → List β) (batch_size N : Nat)
    (st : RState β) : Except Err (List β × List Nat) := do
  let st1 ← freezeStep enc batch_size N st
  let spills :=
    st1.in_mem_spills.map (fun s => SpillModel.mk s.frozen s.offsets) ++
    st1.file_spills.map (fun s => SpillModel.mk s.content s.offsets)
  shuffle_write_merge spills N

/-! #### lastMaxIdx lemmas -/

theorem lastMaxIdx_lt (l : List Nat) (h : l ≠ []) : lastMaxIdx l < l.length := by
  induction l with
  | nil => exact absurd rfl h
  | cons x tail ih =>
    cases tail with
    | nil => simp [lastMaxIdx]
    | cons y rest =>
      rw [lastMaxIdx]
      split
      · simp
      · have := ih (by simp)
        simpa using this

theorem lastMaxIdx_ge (l : List Nat) : ∀ j, j < l.length →
    l.getD j 0 ≤ l.getD (lastMaxIdx l) 0 := by
  induction l with
  | nil =>
    intro j hj
    simp at hj
  | cons x tail ih =>
    cases tail with
    | nil =>
      intro j hj
      have : j = 0 := by simpa using hj
      subst this
      exact le_refl _
    | cons y rest =>
      intro j hj
      rw [lastMaxIdx]
      split
      · next hc =>
        cases j with
        | zero => exact le_refl _
        | succ j =>
          have hj' : j < (y :: rest).length := by simpa using hj
          calc (x :: y :: rest).getD (j + 1) 0
              = (y :: rest).getD j 0 := List.getD_cons_succ
            _ ≤ (y :: rest).getD (lastMaxIdx (y :: rest)) 0 := ih j hj'
            _ ≤ x := le_of_lt hc
            _ = (x :: y :: rest).getD 0 0 := rfl
      · next hc =>
        push_neg at hc
        cases j with
        | zero =>
          rw [List.getD_cons_succ]
          exact hc
        | succ j =>
          rw [List.getD_cons_succ, List.getD_cons_succ]
          exact ih j (by simpa using hj)

/-- `promotePart` on a nonempty spill list: the removed spill is a
member, maximal in `mem_size`, moved to the file-spill list, and its
size is the freed amount. -/
theorem promotePart_spec (st : RState β) (h : st.in_mem_spills ≠ []) :
    ∃ pop, pop ∈ st.in_mem_spills ∧
      (∀ q ∈ st.in_mem_spills, q.mem_size ≤ pop.mem_size) ∧
      promotePart st = .ok ({ st with
        in_mem_spills := st.in_mem_spills.eraseIdx
          (lastMaxIdx (st.in_mem_spills.map (fun s => s.mem_size))),
        file_spills := st.file_spills ++ [pop.into_file_spill],
        mem_used := st.mem_used - pop.mem_size,
        spilled_bytes := st.spilled_bytes + pop.mem_size,
        spill_count := st.spill_count + 1 }, pop.mem_size) := by
  set k := lastMaxIdx (st.in_mem_spills.map (fun s => s.mem_size)) with hk_def
  have hk : k < st.in_mem_spills.length := by
    have h1 := lastMaxIdx_lt (st.in_mem_spills.map (fun s => s.mem_size)) (by simpa using h)
    rw [← hk_def] at h1
    simpa using h1
  refine ⟨st.in_mem_spills.getD k ⟨[], []⟩, ?_, ?_, ?_⟩
  · rw [getD_eq_get _ hk, List.get_eq_getElem]
    exact List.getElem_mem hk
  · intro q hq
    obtain ⟨j, hj, hjq⟩ := List.mem_iff_getElem.mp hq
    have h1 := lastMaxIdx_ge (st.in_mem_spills.map (fun s => s.mem_size)) j
      (by simpa using hj)
    rw [← hk_def] at h1
    have h2 : (st.in_mem_spills.map (fun s => s.mem_size)).getD j 0 = q.mem_size := by
      rw [getD_eq_get _ (by simpa using hj), List.get_eq_getElem]
      simp [hjq]
    have h3 : (st.in_mem_spills.map (fun s => s.mem_size)).getD k 0 =
        (st.in_mem_spills.getD k ⟨[], []⟩).mem_size := by
      rw [getD_eq_get _ (by simpa using hk), getD_eq_get _ hk]
      simp
    rw [h2, h3] at h1
    exact h1
  · unfold promotePart
    rw [if_neg (by simpa using h)]

/-! #### spillOp branch lemmas -/

theorem spillOp_flag (enc : List PI → List β) (bs N : Nat) (st : RState β) :
    (spillOp enc bs N st).1 = true ↔
      (st.in_mem_spills = [] ∨ DISK_SPILL_BUFFERED_SIZE_LIMIT ≤
        st.mem_used - (st.in_mem_spills.map (fun s => s.mem_size)).sum) := by
  simp only [spillOp]
  split
  · next hc =>
    simp only [List.isEmpty_iff] at hc
    exact ⟨fun _ => hc, fun _ => rfl⟩
  · next hc =>
    simp only [List.isEmpty_iff] at hc
    exact ⟨fun h => Bool.noConfusion h, fun h => absurd h hc⟩

theorem spillOp_not_freeze (enc : List PI → List β) (bs N : Nat) (st : RState β)
    (h : ¬ (st.in_mem_spills = [] ∨ DISK_SPILL_BUFFERED_SIZE_LIMIT ≤
      st.mem_used - (st.in_mem_spills.map (fun s => s.mem_size)).sum)) :
    (spillOp enc bs N st).2 = promotePart st := by
  simp only [spillOp]
  rw [if_neg (by simpa [List.isEmpty_iff] using h)]

theorem spillOp_freeze (enc : List PI → List β) (bs N : Nat) (st st1 : RState β)
    (hc : st.in_mem_spills = [] ∨ DISK_SPILL_BUFFERED_SIZE_LIMIT ≤
      st.mem_used - (st.in_mem_spills.map (fun s => s.mem_size)).sum)
    (hfz : freezeStep enc bs N st = .ok st1) :
    (spillOp enc bs N st).2 =
      if 0 < st1.mem_used - (st.in_mem_spills.map (fun s => s.mem_size)).sum then
        .ok ({ st1 with
            mem_used := (st.in_mem_spills.map (fun s => s.mem_size)).sum },
          st1.mem_used - (st.in_mem_spills.map (fun s => s.mem_size)).sum)
      else promotePart { st1 with
        mem_used := (st.in_mem_spills.map (fun s => s.mem_size)).sum } := by
  simp only [spillOp]
  rw [if_pos (by simpa [List.isEmpty_iff] using hc), hfz]
  rfl

/-! ### Claim theorems -/

/-- Concrete spills for the C3 example: per-partition byte counts
`[5,0,3,0]`, `[0,7,0,2]` and `[1,1,1,1]` over `N = 4` partitions. -/
def exSpills3 : List (SpillModel Nat) :=
  [⟨[0, 1, 2, 3, 4, 5, 6, 7], [0, 5, 5, 8, 8]⟩,
   ⟨[0, 1, 2, 3, 4, 5, 6, 7, 8], [0, 0, 7, 7, 9]⟩,
   ⟨[0, 1, 2, 3], [0, 1, 2, 3, 4]⟩]

theorem refData_nil (p : Nat) : refData ([] : List (SpillModel β)) p = [] := by
  unfold refData
  simp

theorem flatten_replicate_zero : ∀ n : Nat,
    (List.replicate n (List.replicate 8 (0 : Nat))).flatten =
      List.replicate (8 * n) 0 := by
  intro n
  induction n with
  | zero => rfl
  | succ n ih =>
    rw [List.replicate_succ, List.flatten_cons, ih,
      show 8 * (n + 1) = 8 + 8 * n from by omega, List.replicate_add]

/-- C1: for every slice of PI pairs (of u32-representable length) whose
partition ids are all below `N`, `counting_sort_pis` succeeds and
reorders the slice so that `partition_id` is non-decreasing and the
multiset of pairs is preserved. -/
theorem C1 (pis : List PI) (N : Nat) (hlen : pis.length < 2 ^ 32)
    (hpids : ∀ pi ∈ pis, pi.partition_id < N) :
    ∃ out, counting_sort_pis pis N = .ok out ∧ out.Perm pis ∧
      List.Chain' (fun x y : PI => x.partition_id ≤ y.partition_id) out :=
  counting_sort_spec pis N hpids

theorem C1_witness :
    ([⟨1, 0⟩, ⟨0, 1⟩, ⟨1, 2⟩] : List PI).length < 2 ^ 32 ∧
    (∀ pi ∈ ([⟨1, 0⟩, ⟨0, 1⟩, ⟨1, 2⟩] : List PI), pi.partition_id < 2) ∧
    ∃ out, counting_sort_pis [⟨1, 0⟩, ⟨0, 1⟩, ⟨1, 2⟩] 2 = .ok out ∧
      out.Perm [⟨1, 0⟩, ⟨0, 1⟩, ⟨1, 2⟩] ∧
      List.Chain' (fun x y : PI => x.partition_id ≤ y.partition_id) out :=
  ⟨by decide, by decide, C1 [⟨1, 0⟩, ⟨0, 1⟩, ⟨1, 2⟩] 2 (by decide) (by decide)⟩

/-- C2: every spill produced by the freeze phase and the offsets table
serialized into the index file by `shuffle_write` are well-formed:
length `N+1`, first entry `0`, non-decreasing, last entry equal to the
byte length of the underlying data; the index file holds exactly
`8*(N+1)` bytes, the `i`-th group of 8 being the little-endian 64-bit
encoding of the `i`-th offset. -/
theorem C2 (β : Type) :
    (∀ (enc : List PI → List β) (bs N : Nat) (pids : List Nat),
      1 ≤ bs → (∀ p ∈ pids, p < N) →
      ∃ spill frames, freezePids enc bs N pids = .ok (spill, frames) ∧
        spill.offsets.length = N + 1 ∧
        spill.offsets.head? = some 0 ∧
        List.Chain' (· ≤ ·) spill.offsets ∧
        spill.offsets.getLast? = some spill.frozen.length) ∧
    (∀ (spills : List (SpillModel β)) (N : Nat),
      (∀ s ∈ spills, s.offsets.length = N + 1) →
      ∃ data offs, shuffle_write_merge spills N = .ok (data, offs) ∧
        offs.length = N + 1 ∧
        offs.head? = some 0 ∧
        List.Chain' (· ≤ ·) offs ∧
        offs.getLast? = some data.length ∧
        (indexFileBytes offs).length = 8 * (N + 1) ∧
        (∀ i, i < N + 1 →
          ((indexFileBytes offs).drop (8 * i)).take 8 = i64le (offs.getD i 0))) := by
  constructor
  · intro enc bs N pids hbs hpid
    obtain ⟨spill, frames, h1, h2, h3, h4, h5, _⟩ :=
      freezePids_spec enc bs N pids hbs hpid
    exact ⟨spill, frames, h1, h2, h3, h4, h5⟩
  · intro spills N hwf
    refine ⟨refData spills N,
      (List.range (N + 1)).map (fun p => (refData spills p).length),
      merge_eq_ref spills N hwf, ?_, ?_, ?_, ?_, ?_, ?_⟩
    · rw [List.length_map, List.length_range]
    · rw [show List.range (N + 1) = 0 :: List.range' 1 N from by
        rw [List.range_eq_range']
        exact List.range'_succ 0 N 1]
      rfl
    · exact chain'_le_map_range _ (N + 1) (refData_length_mono spills)
    · rw [show List.range (N + 1) = List.range N ++ [N] from List.range_succ N,
        List.map_append, List.map_cons, List.map_nil]
      exact List.getLast?_concat _
    · rw [indexFileBytes_length, List.length_map, List.length_range]
    · intro i hi
      exact indexFileBytes_group _ i
        (by rw [List.length_map, List.length_range]; exact hi)

theorem C2_witness :
    (1 ≤ 1 ∧ (∀ p ∈ [0], p < 1) ∧
      ∃ spill frames,
        freezePids (fun _ => ([] : List Nat)) 1 1 [0] = .ok (spill, frames) ∧
        spill.offsets.length = 1 + 1 ∧
        spill.offsets.head? = some 0 ∧
        List.Chain' (· ≤ ·) spill.offsets ∧
        spill.offsets.getLast? = some spill.frozen.length) ∧
    ((∀ s ∈ ([] : List (SpillModel Nat)), s.offsets.length = 0 + 1) ∧
      ∃ data offs, shuffle_write_merge ([] : List (SpillModel Nat)) 0 = .ok (data, offs) ∧
        offs.length = 0 + 1 ∧
        offs.head? = some 0 ∧
        List.Chain' (· ≤ ·) offs ∧
        offs.getLast? = some data.length ∧
        (indexFileBytes offs).length = 8 * (0 + 1) ∧
        (∀ i, i < 0 + 1 →
          ((indexFileBytes offs).drop (8 * i)).take 8 = i64le (offs.getD i 0))) :=
  ⟨⟨le_refl 1, by decide, (C2 Nat).1 (fun _ => []) 1 1 [0] (le_refl 1) (by decide)⟩,
    ⟨by simp, (C2 Nat).2 [] 0 (by simp)⟩⟩

/-- C3: with well-formed spill offsets, each partition region
`[index[p], index[p+1])` of the merged data file is the concatenation,
in spill order, of that partition's bytes from every spill; on the
three-spill example with per-partition byte counts `[5,0,3,0]`,
`[0,7,0,2]`, `[1,1,1,1]`, the successive index differences are
`[6, 8, 4, 3]`. -/
theorem C3 (β : Type) :
    (∀ (spills : List (SpillModel β)) (N : Nat) (data : List β) (offs : List Nat),
      (∀ s ∈ spills, s.offsets.length = N + 1 ∧ s.offsets.head? = some 0 ∧
        List.Chain' (· ≤ ·) s.offsets ∧
        s.offsets.getLast? = some s.frozen.length) →
      shuffle_write_merge spills N = .ok (data, offs) →
      ∀ p, p < N →
        (data.drop (offs.getD p 0)).take (offs.getD (p + 1) 0 - offs.getD p 0) =
          spills.flatMap (fun s => partSlice s p)) ∧
    (∃ data, shuffle_write_merge exSpills3 4 = .ok (data, [0, 6, 14, 18, 21]) ∧
      List.zipWith (fun a b => b - a) [0, 6, 14, 18, 21]
        ([0, 6, 14, 18, 21] : List Nat).tail = [6, 8, 4, 3]) := by
  constructor
  · intro spills N data offs hwfs hrun p hp
    have hwf : ∀ s ∈ spills, s.offsets.length = N + 1 := fun s hs => (hwfs s hs).1
    rw [merge_eq_ref spills N hwf] at hrun
    injection hrun with hpair
    injection hpair with hd ho
    subst hd
    subst ho
    have hoffp : ((List.range (N + 1)).map
        (fun q => (refData spills q).length)).getD p 0 =
        (refData spills p).length := getD_map_range _ (N + 1) p (by omega)
    have hoffp1 : ((List.range (N + 1)).map
        (fun q => (refData spills q).length)).getD (p + 1) 0 =
        (refData spills (p + 1)).length := getD_map_range _ (N + 1) (p + 1) (by omega)
    rw [hoffp, hoffp1]
    obtain ⟨rest, hN⟩ : ∃ t, refData spills N = refData spills (p + 1) ++ t :=
      ⟨_, refData_le_append spills (by omega : p + 1 ≤ N)⟩
    rw [refData_succ] at hN
    rw [refData_succ, List.length_append,
      show (refData spills p).length +
          (spills.flatMap (fun s => partSlice s p)).length -
          (refData spills p).length =
          (spills.flatMap (fun s => partSlice s p)).length from by omega,
      hN, List.append_assoc, List.drop_left, List.take_left]
  · exact ⟨refData exSpills3 4, rfl, by decide⟩

theorem exSpills3_wf : ∀ s ∈ exSpills3, s.offsets.length = 4 + 1 ∧
    s.offsets.head? = some 0 ∧ List.Chain' (· ≤ ·) s.offsets ∧
    s.offsets.getLast? = some s.frozen.length := by
  intro s hs
  simp only [exSpills3, List.mem_cons, List.not_mem_nil, or_false] at hs
  rcases hs with rfl | rfl | rfl <;> exact ⟨rfl, rfl, by simp, rfl⟩

theorem C3_witness :
    (∀ s ∈ exSpills3, s.offsets.length = 4 + 1 ∧ s.offsets.head? = some 0 ∧
      List.Chain' (· ≤ ·) s.offsets ∧
      s.offsets.getLast? = some s.frozen.length) ∧
    ((refData exSpills3 4).drop (([0, 6, 14, 18, 21] : List Nat).getD 0 0)).take
        (([0, 6, 14, 18, 21] : List Nat).getD (0 + 1) 0 -
          ([0, 6, 14, 18, 21] : List Nat).getD 0 0) =
      exSpills3.flatMap (fun s => partSlice s 0) :=
  ⟨exSpills3_wf, (C3 Nat).1 exSpills3 4 (refData exSpills3 4) [0, 6, 14, 18, 21]
    exSpills3_wf rfl 0 (by decide)⟩

/-- C4: every frame emitted by the freeze loop is a nonempty run of rows
of a single partition with at most `batch_size` rows; with
`batch_size = 2` and sorted partition ids `[0,0,0,0,1,1,1,1,2,2]` the
frozen spill holds two 2-row frames for partition 0, two for
partition 1, and one for partition 2. -/
theorem C4 (β : Type) :
    (∀ (enc : List PI → List β) (bs N : Nat) (pids : List Nat),
      1 ≤ bs → (∀ p ∈ pids, p < N) →
      ∃ spill frames, freezePids enc bs N pids = .ok (spill, frames) ∧
        ∀ f ∈ frames, f ≠ [] ∧ f.length ≤ bs ∧
          ∃ p, ∀ x ∈ f, x.partition_id = p) ∧
    ((freezePids (fun f => List.replicate f.length 7) 2 3
        [0, 0, 0, 0, 1, 1, 1, 1, 2, 2]).toOption.map
        (fun sf => sf.2.map (fun f => ((f.headD ⟨0, 0⟩).partition_id, f.length))) =
      some [(0, 2), (0, 2), (1, 2), (1, 2), (2, 2)]) := by
  constructor
  · intro enc bs N pids hbs hpid
    obtain ⟨spill, frames, h1, _, _, _, _, h6⟩ :=
      freezePids_spec enc bs N pids hbs hpid
    exact ⟨spill, frames, h1, h6⟩
  · rfl

theorem C4_witness :
    1 ≤ 2 ∧ (∀ p ∈ [1, 0, 1], p < 2) ∧
    ∃ spill frames,
      freezePids (fun _ => ([] : List Nat)) 2 2 [1, 0, 1] = .ok (spill, frames) ∧
      ∀ f ∈ frames, f ≠ [] ∧ f.length ≤ 2 ∧ ∃ p, ∀ x ∈ f, x.partition_id = p :=
  ⟨by decide, by decide, (C4 Nat).1 (fun _ => []) 2 2 [1, 0, 1] (by decide) (by decide)⟩

/-- C5: `insert_batch` asks the memory manager for exactly twice the
batch's memory size (the outcome depends on the grant decision only at
that size); a failed reservation yields a memory-exhaustion error with
the state untouched, a successful one appends the batch and accounts
the doubled size. -/
theorem C5 (β : Type) :
    (∀ (g1 g2 : Nat → Bool) (st : RState β) (input : Batch),
      g1 (input.mem_size * 2) = g2 (input.mem_size * 2) →
      insert_batch g1 st input = insert_batch g2 st input) ∧
    (∀ (grant : Nat → Bool) (st : RState β) (input : Batch),
      grant (input.mem_size * 2) = false →
      insert_batch grant st input = (st, .error .resourcesExhausted)) ∧
    (∀ (grant : Nat → Bool) (st : RState β) (input : Batch),
      grant (input.mem_size * 2) = true →
      insert_batch grant st input = ({ st with
          mem_used := st.mem_used + input.mem_size * 2,
          buffered_mem_size := st.buffered_mem_size + input.mem_size,
          buffered_batches := st.buffered_batches ++ [input] }, .ok ())) := by
  refine ⟨?_, ?_, ?_⟩
  · intro g1 g2 st input h
    simp only [insert_batch]
    rw [h]
  · intro grant st input h
    simp only [insert_batch]
    rw [if_neg (by simp [h])]
  · intro grant st input h
    simp only [insert_batch]
    rw [if_pos h]

theorem C5_witness :
    ((fun _ => false) ((Batch.mk [0] 3).mem_size * 2) = false) ∧
    insert_batch (fun _ => false) (initState Nat) (Batch.mk [0] 3) =
      (initState Nat, .error .resourcesExhausted) :=
  ⟨rfl, (C5 Nat).2.1 (fun _ => false) (initState Nat) (Batch.mk [0] 3) rfl⟩

/-- C6: calling `spill()` with an empty ingest buffer and no in-memory
spill (hence zero accounted memory) fails with `ResourcesExhausted`
instead of succeeding with zero freed bytes; the error propagates
before the spill lists are touched. -/
theorem C6 (β : Type) (enc : List PI → List β) (bs N : Nat) (st : RState β)
    (hbuf : st.buffered_batches = []) (hims : st.in_mem_spills = [])
    (hmem : st.mem_used = 0) :
    (spillOp enc bs N st).2 = .error .resourcesExhausted := by
  have hsum : (st.in_mem_spills.map (fun s => s.mem_size)).sum = 0 := by
    rw [hims]
    rfl
  have hfz : freezeStep enc bs N st = .ok st := by
    unfold freezeStep
    rw [if_pos hbuf]
  have hcond : ¬ (0 < st.mem_used -
      (st.in_mem_spills.map (fun s => s.mem_size)).sum) := by
    simp [hmem, hsum]
  rw [spillOp_freeze enc bs N st st (Or.inl hims) hfz, if_neg hcond]
  unfold promotePart
  rw [if_pos (by simp [hims])]

theorem C6_witness :
    (initState Nat).buffered_batches = [] ∧
    (initState Nat).in_mem_spills = [] ∧
    (initState Nat).mem_used = 0 ∧
    (spillOp (fun _ => ([] : List Nat)) 1 1 (initState Nat)).2 =
      .error .resourcesExhausted :=
  ⟨rfl, rfl, rfl, C6 Nat (fun _ => []) 1 1 (initState Nat) rfl rfl rfl⟩

/-- C7: with no `insert_batch` call before it, `shuffle_write` writes a
zero-length data file and an index file of `N+1` zero-valued
little-endian 64-bit integers (`8*(N+1)` zero bytes). -/
theorem C7 (β : Type) (enc : List PI → List β) (bs N : Nat) :
    shuffle_write_op enc bs N (initState β) = .ok ([], List.replicate (N + 1) 0) ∧
    indexFileBytes (List.replicate (N + 1) 0) = List.replicate (8 * (N + 1)) 0 := by
  constructor
  · have hop : shuffle_write_op enc bs N (initState β) =
        shuffle_write_merge ([] : List (SpillModel β)) N := rfl
    rw [hop, merge_eq_ref ([] : List (SpillModel β)) N (fun s hs => absurd hs (by simp))]
    refine congrArg Except.ok ?_
    rw [Prod.mk.injEq]
    constructor
    · exact refData_nil N
    · calc (List.range (N + 1)).map
            (fun p => (refData ([] : List (SpillModel β)) p).length)
          = (List.range (N + 1)).map (fun _ => 0) :=
            List.map_congr_left (fun p _ => by rw [refData_nil p]; rfl)
        _ = List.replicate (N + 1) 0 := by rw [List.map_const', List.length_range]
  · unfold indexFileBytes
    rw [List.map_replicate, show i64le 0 = List.replicate 8 0 from rfl,
      flatten_replicate_zero]

/-- C8 (amended): the freeze branch of `spill()` runs iff no in-memory
spill exists or the buffered size is at least (`>=`, not strictly
greater than) the 16 MiB threshold; when it runs and frees memory the
freed amount is returned without promotion, otherwise the in-memory
spill with the largest `mem_size()` (the last one on ties, per
`max_by_key`) is promoted to a file spill and its size returned. -/
theorem C8 (β : Type) (enc : List PI → List β) (bs N : Nat) (st : RState β) :
    ((spillOp enc bs N st).1 = true ↔
      (st.in_mem_spills = [] ∨ DISK_SPILL_BUFFERED_SIZE_LIMIT ≤
        st.mem_used - (st.in_mem_spills.map (fun s => s.mem_size)).sum)) ∧
    (¬ (st.in_mem_spills = [] ∨ DISK_SPILL_BUFFERED_SIZE_LIMIT ≤
        st.mem_used - (st.in_mem_spills.map (fun s => s.mem_size)).sum) →
      (spillOp enc bs N st).2 = promotePart st) ∧
    (∀ st1, freezeStep enc bs N st = .ok st1 →
      (st.in_mem_spills = [] ∨ DISK_SPILL_BUFFERED_SIZE_LIMIT ≤
        st.mem_used - (st.in_mem_spills.map (fun s => s.mem_size)).sum) →
      (spillOp enc bs N st).2 =
        if 0 < st1.mem_used - (st.in_mem_spills.map (fun s => s.mem_size)).sum then
          .ok ({ st1 with
              mem_used := (st.in_mem_spills.map (fun s => s.mem_size)).sum },
            st1.mem_used - (st.in_mem_spills.map (fun s => s.mem_size)).sum)
        else promotePart { st1 with
          mem_used := (st.in_mem_spills.map (fun s => s.mem_size)).sum }) ∧
    (∀ st2 : RState β, st2.in_mem_spills ≠ [] →
      ∃ pop, pop ∈ st2.in_mem_spills ∧
        (∀ q ∈ st2.in_mem_spills, q.mem_size ≤ pop.mem_size) ∧
        ∃ st3, promotePart st2 = .ok (st3, pop.mem_size) ∧
          st3.file_spills = st2.file_spills ++ [pop.into_file_spill] ∧
          st3.in_mem_spills = st2.in_mem_spills.eraseIdx
            (lastMaxIdx (st2.in_mem_spills.map (fun s => s.mem_size))) ∧
          st3.mem_used = st2.mem_used - pop.mem_size) := by
  refine ⟨spillOp_flag enc bs N st, spillOp_not_freeze enc bs N st, ?_, ?_⟩
  · intro st1 hfz hc
    exact spillOp_freeze enc bs N st st1 hc hfz
  · intro st2 h2
    obtain ⟨pop, hmem, hmax, hrun⟩ := promotePart_spec st2 h2
    exact ⟨pop, hmem, hmax, _, hrun, rfl, rfl, rfl⟩

/-- The cut-off state for C8: one in-memory spill of `mem_size` 17 and
a buffered size of exactly 16777216 bytes, at the threshold but not
above it. -/
def cexState : RState Unit :=
  ⟨[], 0, [⟨[()], [0, 1]⟩], [], 16777233, 0, 0⟩

theorem C8_witness :
    cexState.in_mem_spills ≠ [] ∧
    ∃ pop, pop ∈ cexState.in_mem_spills ∧
      (∀ q ∈ cexState.in_mem_spills, q.mem_size ≤ pop.mem_size) ∧
      ∃ st3, promotePart cexState = .ok (st3, pop.mem_size) ∧
        st3.file_spills = cexState.file_spills ++ [pop.into_file_spill] ∧
        st3.in_mem_spills = cexState.in_mem_spills.eraseIdx
          (lastMaxIdx (cexState.in_mem_spills.map (fun s => s.mem_size))) ∧
        st3.mem_used = cexState.mem_used - pop.mem_size :=
  ⟨by decide, (C8 Unit (fun _ => []) 1 1 cexState).2.2.2 cexState (by decide)⟩

theorem C8_counterexample :
    (spillOp (fun _ => ([] : List Unit)) 1 1 cexState).1 = true ∧
    cexState.in_mem_spills ≠ [] ∧
    ¬ DISK_SPILL_BUFFERED_SIZE_LIMIT <
      cexState.mem_used - (cexState.in_mem_spills.map (fun s => s.mem_size)).sum := by
  refine ⟨rfl, by decide, by decide⟩

/-- C9: under the precondition that all partition ids are below `N` (and
the slice length fits in u32), every array access of
`counting_sort_pis` is in bounds and it returns normally; with any
out-of-range partition id the indexing of `counts` is out of bounds and
the run panics. -/
theorem C9 :
    (∀ (pis : List PI) (N : Nat), pis.length < 2 ^ 32 →
      (∀ pi ∈ pis, pi.partition_id < N) →
      ∃ out, counting_sort_pis pis N = .ok out) ∧
    (∀ (pis : List PI) (N : Nat), (∃ pi ∈ pis, N ≤ pi.partition_id) →
      counting_sort_pis pis N = .error .panic) := by
  constructor
  · intro pis N _ hp
    obtain ⟨out, h1, _, _⟩ := counting_sort_spec pis N hp
    exact ⟨out, h1⟩
  · exact counting_sort_oob

theorem C9_witness :
    (∃ out, counting_sort_pis [⟨0, 0⟩, ⟨1, 1⟩] 2 = .ok out) ∧
    counting_sort_pis [⟨2, 0⟩] 1 = .error .panic :=
  ⟨C9.1 [⟨0, 0⟩, ⟨1, 1⟩] 2 (by decide) (by decide),
    C9.2 [⟨2, 0⟩] 1 ⟨⟨2, 0⟩, by decide, by decide⟩⟩

/-- C10: with all partition ids below `N` the inner cycle-following loop
of `counting_sort_pis` terminates within its `pis.length + 1` fuel
budget (each placement strictly shrinks the remaining bucket capacity),
so the function is total on such inputs: it never runs out of fuel and
returns a result. -/
theorem C10 (pis : List PI) (N : Nat) (hlen : pis.length < 2 ^ 32)
    (hpids : ∀ pi ∈ pis, pi.partition_id < N) :
    counting_sort_pis pis N ≠ .error .outOfFuel ∧
    ∃ out, counting_sort_pis pis N = .ok out := by
  obtain ⟨out, h1, _, _⟩ := counting_sort_spec pis N hpids
  exact ⟨by rw [h1]; simp, out, h1⟩

theorem C10_witness :
    ([⟨1, 0⟩, ⟨1, 1⟩, ⟨0, 2⟩] : List PI).length < 2 ^ 32 ∧
    (∀ pi ∈ ([⟨1, 0⟩, ⟨1, 1⟩, ⟨0, 2⟩] : List PI), pi.partition_id < 3) ∧
    (counting_sort_pis [⟨1, 0⟩, ⟨1, 1⟩, ⟨0, 2⟩] 3 ≠ .error .outOfFuel ∧
      ∃ out, counting_sort_pis [⟨1, 0⟩, ⟨1, 1⟩, ⟨0, 2⟩] 3 = .ok out) :=
  ⟨by decide, by decide, C10 [⟨1, 0⟩, ⟨1, 1⟩, ⟨0, 2⟩] 3 (by decide) (by decide)⟩

end SortShuffle
